import Mathlib

/-!
# Verification of the image rectangle-extraction pipeline

A shallow embedding of the pure-JavaScript image cropping pipeline
(`imageProcessor.ts`): grayscale reduction, Gaussian blur, Canny edge
detection (Sobel gradients, non-maximum suppression, hysteresis), dilation,
contour tracing, best-rectangle selection and inset cropping, together with
the `cropToInnerRectangle` entry point.

Conventions of the embedding:
* pixel buffers (`Uint8Array`, `ImageData.data`) are total functions `ℕ → ℕ`
  indexed exactly as the source indexes them (`index = y*width + x`);
* JavaScript floating-point arithmetic is idealised as exact arithmetic over
  `ℚ` (where the source only adds, multiplies and rounds) or `ℝ` (where the
  source takes square roots and arctangents);
* `Math.round` is `round` (floor of `x + 1/2`, which is exactly the
  half-up rounding of JavaScript);
* the `while (stack.length > 0)` loops are embedded as structurally
  recursive functions over a fuel parameter that strictly exceeds the
  maximal possible number of loop iterations (each iteration pops one entry;
  at most `9` entries are pushed per marked pixel and at most `w*h + 1`
  pixels can be marked, so `9*(w*h+1) + 10` is an upper bound).
-/

/-- Truncation toward zero, the integer division underlying the JavaScript
remainder operator `%`. -/
noncomputable def jsTrunc (x : ℝ) : ℤ := if 0 ≤ x then ⌊x⌋ else ⌈x⌉

/-- The JavaScript remainder `a % b` (the sign follows the dividend). -/
noncomputable def jsRem (a b : ℝ) : ℝ := a - b * (jsTrunc (a / b) : ℝ)

/-- `Math.atan2 y x`, by cases on the quadrant, with values in `[-π, π]`. -/
noncomputable def jsAtan2 (y x : ℝ) : ℝ :=
  if 0 < x then Real.arctan (y / x)
  else if x < 0 then
    (if 0 ≤ y then Real.arctan (y / x) + Real.pi else Real.arctan (y / x) - Real.pi)
  else
    (if 0 < y then Real.pi / 2 else if y < 0 then -(Real.pi / 2) else 0)

/-- A canvas: RGBA bytes in a flat array, channel `c` of pixel `(x, y)`
at index `4*(y*width + x) + c`, as returned by `getImageData`. -/
structure Canvas where
  width : ℕ
  height : ℕ
  data : ℕ → ℕ

/-- The encoded images the pipeline emits (`canvas.toDataURL('image/png')`
results): either the whole scaled canvas, or the region of it drawn onto the
crop canvas by `cropWithPerspectiveTransform`. -/
inductive DataURL where
  | canvasPng (source : Canvas)
  | cropPng (source : Canvas) (cropX cropY cropWidth cropHeight : ℚ)

/-- Configuration for the image cropping algorithm. -/
structure CropConfig where
  cannyLow : ℚ
  cannyHigh : ℚ
  dilationIterations : ℕ
  minAreaPercent : ℚ
  insetMargin : ℚ

/-- Default configuration values. -/
def DEFAULT_CROP_CONFIG : CropConfig :=
  { cannyLow := 60, cannyHigh := 140, dilationIterations := 1,
    minAreaPercent := 20, insetMargin := 10 }

/-- The record resolved by the pipeline: `{imageUrl, width, height}`. -/
structure PipelineOutput where
  imageUrl : DataURL
  width : ℕ
  height : ℕ

/-- `convertToGrayscale`: per pixel `gray = round(0.299 R + 0.587 G + 0.114 B)`. -/
def convertToGrayscale (data : ℕ → ℕ) : ℕ → ℕ := fun j =>
  (round ((0.299 : ℚ) * (data (4*j) : ℚ) + (0.587 : ℚ) * (data (4*j+1) : ℚ)
    + (0.114 : ℚ) * (data (4*j+2) : ℚ))).toNat

/-- The guard of the interior loops `for y = 1; y < height-1` /
`for x = 1; x < width-1`. -/
def interiorPixel (width height x y : ℕ) : Prop :=
  1 ≤ x ∧ x < width - 1 ∧ 1 ≤ y ∧ y < height - 1

instance (width height x y : ℕ) : Decidable (interiorPixel width height x y) := by
  unfold interiorPixel; infer_instance

/-- `applyGaussianBlur`: 3×3 kernel `[[1,2,1],[2,4,2],[1,2,1]]/16` applied at
interior pixels; the border stays at the zero the fresh buffer was
initialised with. -/
def applyGaussianBlur (grayData : ℕ → ℕ) (width height : ℕ) : ℕ → ℕ := fun index =>
  let x := index % width
  let y := index / width
  if interiorPixel width height x y then
    (round ((((grayData ((y-1)*width + (x-1)) : ℚ) * 1 + (grayData ((y-1)*width + x) : ℚ) * 2
      + (grayData ((y-1)*width + (x+1)) : ℚ) * 1
      + (grayData (y*width + (x-1)) : ℚ) * 2 + (grayData (y*width + x) : ℚ) * 4
      + (grayData (y*width + (x+1)) : ℚ) * 2
      + (grayData ((y+1)*width + (x-1)) : ℚ) * 1 + (grayData ((y+1)*width + x) : ℚ) * 2
      + (grayData ((y+1)*width + (x+1)) : ℚ) * 1) / 16))).toNat
  else 0

/-- Sobel horizontal gradient `gx` at interior pixel `(x, y)`,
kernel `[[-1,0,1],[-2,0,2],[-1,0,1]]`. -/
def sobelGx (g : ℕ → ℕ) (width x y : ℕ) : ℤ :=
  -(g ((y-1)*width + (x-1)) : ℤ) + (g ((y-1)*width + (x+1)) : ℤ)
  - 2 * (g (y*width + (x-1)) : ℤ) + 2 * (g (y*width + (x+1)) : ℤ)
  - (g ((y+1)*width + (x-1)) : ℤ) + (g ((y+1)*width + (x+1)) : ℤ)

/-- Sobel vertical gradient `gy` at interior pixel `(x, y)`,
kernel `[[-1,-2,-1],[0,0,0],[1,2,1]]`. -/
def sobelGy (g : ℕ → ℕ) (width x y : ℕ) : ℤ :=
  -(g ((y-1)*width + (x-1)) : ℤ) - 2 * (g ((y-1)*width + x) : ℤ)
  - (g ((y-1)*width + (x+1)) : ℤ)
  + (g ((y+1)*width + (x-1)) : ℤ) + 2 * (g ((y+1)*width + x) : ℤ)
  + (g ((y+1)*width + (x+1)) : ℤ)

/-- `gradientMagnitude[index] = sqrt(gx² + gy²)` at interior pixels,
`0` elsewhere (fresh `Float32Array`). -/
noncomputable def gradientMagnitude (g : ℕ → ℕ) (width height : ℕ) : ℕ → ℝ := fun index =>
  let x := index % width
  let y := index / width
  if interiorPixel width height x y then
    Real.sqrt ((sobelGx g width x y : ℝ)^2 + (sobelGy g width x y : ℝ)^2)
  else 0

/-- `gradientDirection[index] = atan2(gy, gx)` at interior pixels, `0` elsewhere. -/
noncomputable def gradientDirection (g : ℕ → ℕ) (width height : ℕ) : ℕ → ℝ := fun index =>
  let x := index % width
  let y := index / width
  if interiorPixel width height x y then
    jsAtan2 (sobelGy g width x y : ℝ) (sobelGx g width x y : ℝ)
  else 0

/-- The pair of directional neighbour magnitudes compared by non-maximum
suppression, selected by the source's direction tests. -/
noncomputable def nmsNeighbors (mag : ℕ → ℝ) (direction : ℝ) (width index : ℕ) : ℝ × ℝ :=
  if -(Real.pi/8) ≤ direction ∧ direction < Real.pi/8 then
    (mag (index - 1), mag (index + 1))
  else if Real.pi/8 ≤ direction ∧ direction < 3*Real.pi/8 then
    (mag (index - width - 1), mag (index + width + 1))
  else if 3*Real.pi/8 ≤ direction ∧ direction < 5*Real.pi/8 then
    (mag (index - width), mag (index + width))
  else
    (mag (index - width + 1), mag (index + width - 1))

/-- The non-maximum-suppression value written at interior pixel `(x, y)`:
`magnitude >= neighbor1 && magnitude >= neighbor2` keeps the pixel, which is
then classified `255` / `128` / `0` against the two thresholds. -/
noncomputable def suppressedAt (mag dir : ℕ → ℝ) (low high : ℝ) (width x y : ℕ) : ℕ :=
  let index := y*width + x
  let magnitude := mag index
  let n := nmsNeighbors mag (dir index) width index
  if n.1 ≤ magnitude ∧ n.2 ≤ magnitude then
    (if high < magnitude then 255 else if low < magnitude then 128 else 0)
  else 0

/-- The `suppressedData` buffer: `suppressedAt` at interior pixels, `0`
elsewhere. -/
noncomputable def suppressedData (g : ℕ → ℕ) (width height : ℕ) (low high : ℝ) : ℕ → ℕ :=
  fun index =>
    let x := index % width
    let y := index / width
    if interiorPixel width height x y then
      suppressedAt (gradientMagnitude g width height) (gradientDirection g width height)
        low high width x y
    else 0

/-- The `(dy, dx)` offsets of the 8-neighbour loops, in source iteration
order (`dy` outer from `-1` to `1`, `dx` inner). -/
def neighborOffsets : List (ℤ × ℤ) :=
  [(-1,-1),(-1,0),(-1,1),(0,-1),(0,0),(0,1),(1,-1),(1,0),(1,1)]

/-- Fuel strictly exceeding the iterations any of the stack loops can make. -/
def loopFuel (width height : ℕ) : ℕ := 9 * (width * height + 1) + 10

/-- One neighbour inspection of `traceWeakEdges`: bounds-check, then promote
a weak (`128`) pixel not yet in `edgeData` and remember it for the stack. -/
def weakStep (suppressed : ℕ → ℕ) (width height : ℕ) (p : ℕ × ℕ)
    (acc : (ℕ → ℕ) × List (ℕ × ℕ)) (d : ℤ × ℤ) : (ℕ → ℕ) × List (ℕ × ℕ) :=
  let nx : ℤ := (p.1 : ℤ) + d.2
  let ny : ℤ := (p.2 : ℤ) + d.1
  if 0 ≤ nx ∧ nx < width ∧ 0 ≤ ny ∧ ny < height then
    let index := ny.toNat * width + nx.toNat
    if suppressed index = 128 ∧ acc.1 index = 0 then
      (Function.update acc.1 index 255, acc.2 ++ [(nx.toNat, ny.toNat)])
    else acc
  else acc

/-- The `traceWeakEdges` stack loop; newly promoted pixels are pushed, and
`pop` takes the most recently pushed entry. -/
def traceWeakEdges (suppressed : ℕ → ℕ) (width height : ℕ) :
    ℕ → (ℕ → ℕ) → List (ℕ × ℕ) → (ℕ → ℕ)
  | 0, edgeData, _ => edgeData
  | _+1, edgeData, [] => edgeData
  | fuel+1, edgeData, p :: rest =>
    let s := neighborOffsets.foldl (weakStep suppressed width height p) (edgeData, [])
    traceWeakEdges suppressed width height fuel s.1 (s.2.reverse ++ rest)

/-- The interior cells `(x, y)`, `1 ≤ x ≤ width-2`, `1 ≤ y ≤ height-2`, in
row-major loop order. -/
def interiorCells (width height : ℕ) : List (ℕ × ℕ) :=
  (List.range' 1 (height - 1 - 1)).flatMap fun y =>
    (List.range' 1 (width - 1 - 1)).map fun x => (x, y)

/-- One cell of the hysteresis scan: a strong pixel is written to `edgeData`
and seeds a weak-edge trace. -/
def hysteresisStep (suppressed : ℕ → ℕ) (width height : ℕ) (edgeData : ℕ → ℕ)
    (p : ℕ × ℕ) : ℕ → ℕ :=
  let index := p.2 * width + p.1
  if suppressed index = 255 then
    traceWeakEdges suppressed width height (loopFuel width height)
      (Function.update edgeData index 255) [p]
  else edgeData

/-- `applyCannyEdgeDetection`: Sobel gradients, non-maximum suppression and
hysteresis thresholding, producing the binary edge mask. -/
noncomputable def applyCannyEdgeDetection (grayData : ℕ → ℕ) (width height : ℕ)
    (lowThreshold highThreshold : ℝ) : ℕ → ℕ :=
  let s := suppressedData grayData width height lowThreshold highThreshold
  (interiorCells width height).foldl (hysteresisStep s width height) (fun _ => 0)

/-- Write `255` at the 9 neighbour indices of interior pixel `p`
(`newData[neighborIndex] = 255`; no bounds check is needed for interior
pixels). -/
def dilateWrite (acc : ℕ → ℕ) (width : ℕ) (p : ℕ × ℕ) : ℕ → ℕ :=
  neighborOffsets.foldl
    (fun a d => Function.update a ((((p.2 : ℤ) + d.1).toNat) * width + ((p.1 : ℤ) + d.2).toNat) 255)
    acc

/-- One dilation iteration: a fresh copy of the current mask, into which the
neighbourhood of every set interior pixel of the current mask is written. -/
def dilateStep (width height : ℕ) (cur : ℕ → ℕ) : ℕ → ℕ :=
  (interiorCells width height).foldl
    (fun acc p => if cur (p.2 * width + p.1) = 255 then dilateWrite acc width p else acc)
    cur

/-- `applyDilation`: `iterations` non-in-place dilation passes starting from
a copy of `edgeData`. -/
def applyDilation (edgeData : ℕ → ℕ) (width height iterations : ℕ) : ℕ → ℕ :=
  (dilateStep width height)^[iterations] edgeData

/-- The neighbours `traceContour` pushes from `p`: bounds-checked, unvisited
and set, in source loop order. -/
def contourPushes (edgeData visited : ℕ → ℕ) (width height : ℕ) (p : ℕ × ℕ) :
    List (ℕ × ℕ) :=
  neighborOffsets.filterMap fun d =>
    let nx : ℤ := (p.1 : ℤ) + d.2
    let ny : ℤ := (p.2 : ℤ) + d.1
    if 0 ≤ nx ∧ nx < width ∧ 0 ≤ ny ∧ ny < height then
      let index := ny.toNat * width + nx.toNat
      if visited index = 0 ∧ edgeData index = 255 then some (nx.toNat, ny.toNat) else none
    else none

/-- The `traceContour` stack loop: pop, and if the popped pixel is unvisited
and set, mark it, append it to the contour and push its admissible
neighbours. -/
def traceLoop (edgeData : ℕ → ℕ) (width height : ℕ) :
    ℕ → (ℕ → ℕ) → List (ℕ × ℕ) → List (ℕ × ℕ) → (ℕ → ℕ) × List (ℕ × ℕ)
  | 0, visited, _, contour => (visited, contour)
  | _+1, visited, [], contour => (visited, contour)
  | fuel+1, visited, p :: rest, contour =>
    let index := p.2 * width + p.1
    if visited index = 0 ∧ edgeData index = 255 then
      let visited1 := Function.update visited index 1
      let pushes := contourPushes edgeData visited1 width height p
      traceLoop edgeData width height fuel visited1 (pushes.reverse ++ rest) (contour ++ [p])
    else traceLoop edgeData width height fuel visited rest contour

/-- `traceContour`, returning the updated visited mask with the contour. -/
def traceContour (edgeData visited : ℕ → ℕ) (width height startX startY : ℕ) :
    (ℕ → ℕ) × List (ℕ × ℕ) :=
  traceLoop edgeData width height (loopFuel width height) visited [(startX, startY)] []

/-- All cells of the image in the row-major order of the `findContours` scan. -/
def rowMajorCells (width height : ℕ) : List (ℕ × ℕ) :=
  (List.range height).flatMap fun y => (List.range width).map fun x => (x, y)

/-- One cell of the `findContours` scan, threading the visited mask and the
accumulated contour list. -/
def findContoursStep (edgeData : ℕ → ℕ) (width height : ℕ)
    (acc : (ℕ → ℕ) × List (List (ℕ × ℕ))) (p : ℕ × ℕ) :
    (ℕ → ℕ) × List (List (ℕ × ℕ)) :=
  let index := p.2 * width + p.1
  if edgeData index = 255 ∧ acc.1 index = 0 then
    let r := traceContour edgeData acc.1 width height p.1 p.2
    (r.1, if 10 < r.2.length then acc.2 ++ [r.2] else acc.2)
  else acc

/-- `findContours`: row-major scan starting a trace at every unvisited set
pixel; traced contours with `length > 10` are kept. -/
def findContours (edgeData : ℕ → ℕ) (width height : ℕ) : List (List (ℕ × ℕ)) :=
  ((rowMajorCells width height).foldl (findContoursStep edgeData width height)
    ((fun _ => 0), [])).2

/-- Axis-aligned bounding box of a contour. -/
structure BoundingBox where
  x : ℕ
  y : ℕ
  width : ℕ
  height : ℕ
deriving DecidableEq

/-- `getBoundingRect` (the source reads `contour[0]` first, so the contour is
assumed nonempty there; the empty case is unreachable and mapped to the zero
box). -/
def getBoundingRect (contour : List (ℕ × ℕ)) : BoundingBox :=
  match contour with
  | [] => ⟨0, 0, 0, 0⟩
  | p :: _ =>
    let minX := contour.foldl (fun a q => min a q.1) p.1
    let maxX := contour.foldl (fun a q => max a q.1) p.1
    let minY := contour.foldl (fun a q => min a q.2) p.2
    let maxY := contour.foldl (fun a q => max a q.2) p.2
    ⟨minX, minY, maxX - minX, maxY - minY⟩

/-- A candidate rectangle `{x, y, width, height, angle}`. -/
structure CandidateRect where
  x : ℕ
  y : ℕ
  width : ℕ
  height : ℕ
  angle : ℝ

/-- `calculateMinAreaRect`: the bounding box plus the coarse orientation
estimate `atan2(last.y - first.y, last.x - first.x)` in degrees. -/
noncomputable def calculateMinAreaRect (contour : List (ℕ × ℕ)) : CandidateRect :=
  let bounds := getBoundingRect contour
  let first := contour.head?.getD (0, 0)
  let last := contour.getLast?.getD (0, 0)
  let angle : ℝ :=
    if 2 < contour.length then
      jsAtan2 (((last.2 : ℤ) - (first.2 : ℤ) : ℤ) : ℝ) (((last.1 : ℤ) - (first.1 : ℤ) : ℤ) : ℝ)
        * 180 / Real.pi
    else 0
  ⟨bounds.x, bounds.y, bounds.width, bounds.height, angle⟩

/-- `borderPad = Math.round(Math.min(width, height) * 0.02)`. -/
def borderPadOf (width height : ℕ) : ℕ := (round ((min width height : ℚ) * 0.02)).toNat

/-- The score `rectArea * (1 - min(|angle % 90|, 90 - |angle % 90|) / 10)`
given to a surviving contour. -/
noncomputable def contourScore (contour : List (ℕ × ℕ)) : ℝ :=
  let bounds := getBoundingRect contour
  let rect := calculateMinAreaRect contour
  let angle := |jsRem rect.angle 90|
  ((bounds.width * bounds.height : ℕ) : ℝ) * (1 - min angle (90 - angle) / 10)

/-- The area rejection `rectArea < imgArea * (minAreaPercent / 100)`. -/
def areaTooSmall (bounds : BoundingBox) (width height : ℕ) (minAreaPercent : ℚ) : Prop :=
  ((bounds.width * bounds.height : ℕ) : ℚ) < ((width * height : ℕ) : ℚ) * (minAreaPercent / 100)

instance (bounds : BoundingBox) (width height : ℕ) (pct : ℚ) :
    Decidable (areaTooSmall bounds width height pct) := by
  unfold areaTooSmall; infer_instance

/-- The border rejection: the box comes within `borderPad` of an image edge. -/
def hugsBorder (bounds : BoundingBox) (width height : ℕ) : Prop :=
  bounds.x ≤ borderPadOf width height ∨ bounds.y ≤ borderPadOf width height ∨
  (width : ℤ) - borderPadOf width height ≤ ((bounds.x + bounds.width : ℕ) : ℤ) ∨
  (height : ℤ) - borderPadOf width height ≤ ((bounds.y + bounds.height : ℕ) : ℤ)

instance (bounds : BoundingBox) (width height : ℕ) :
    Decidable (hugsBorder bounds width height) := by
  unfold hugsBorder; infer_instance

open Classical in
/-- The `findBestRectangle` loop over the contour list, carrying the best
`{rect, score}` seen so far (`null` initially). -/
noncomputable def fbrLoop (width height : ℕ) (minAreaPercent : ℚ) :
    Option (CandidateRect × ℝ) → List (List (ℕ × ℕ)) → Option (CandidateRect × ℝ)
  | best, [] => best
  | best, contour :: rest =>
    if contour.length < 4 then fbrLoop width height minAreaPercent best rest
    else
      let bounds := getBoundingRect contour
      if areaTooSmall bounds width height minAreaPercent then
        fbrLoop width height minAreaPercent best rest
      else if hugsBorder bounds width height then
        fbrLoop width height minAreaPercent best rest
      else
        if (match best with | none => True | some b => b.2 < contourScore contour) then
          fbrLoop width height minAreaPercent
            (some (calculateMinAreaRect contour, contourScore contour)) rest
        else fbrLoop width height minAreaPercent best rest

/-- `findBestRectangle`: the rectangle of the best-scoring surviving contour. -/
noncomputable def findBestRectangle (contours : List (List (ℕ × ℕ)))
    (width height : ℕ) (minAreaPercent : ℚ) : Option CandidateRect :=
  (fbrLoop width height minAreaPercent none contours).map Prod.fst

/-- `cropWithPerspectiveTransform`: inset clamped to a quarter of the
rectangle per axis, origin clamped to the canvas, size clamped to the
remaining canvas extent; the crop canvas is encoded. -/
def cropWithPerspectiveTransform (canvas : Canvas) (rect : CandidateRect)
    (insetMargin : ℚ) : DataURL :=
  let insetX : ℚ := min insetMargin ((rect.width : ℚ) / 4)
  let insetY : ℚ := min insetMargin ((rect.height : ℚ) / 4)
  let cropX : ℚ := max 0 ((rect.x : ℚ) + insetX)
  let cropY : ℚ := max 0 ((rect.y : ℚ) + insetY)
  let cropWidth : ℚ := min ((canvas.width : ℚ) - cropX) ((rect.width : ℚ) - 2 * insetX)
  let cropHeight : ℚ := min ((canvas.height : ℚ) - cropY) ((rect.height : ℚ) - 2 * insetY)
  .cropPng canvas cropX cropY cropWidth cropHeight

/-- The final branch of `processImageWithJavaScript`: crop to the best
rectangle and return its dimensions, or fall back to the whole canvas. -/
def assembleResult (canvas : Canvas) (config : CropConfig) :
    Option CandidateRect → PipelineOutput
  | some bestRect =>
    ⟨cropWithPerspectiveTransform canvas bestRect config.insetMargin,
      bestRect.width, bestRect.height⟩
  | none => ⟨.canvasPng canvas, canvas.width, canvas.height⟩

/-- The edge mask fed to the contour stage: grayscale, blur, Canny, and
dilation when `dilationIterations > 0`. -/
noncomputable def pipelineEdges (canvas : Canvas) (config : CropConfig) : ℕ → ℕ :=
  let grayData := convertToGrayscale canvas.data
  let blurredData := applyGaussianBlur grayData canvas.width canvas.height
  let edgeData := applyCannyEdgeDetection blurredData canvas.width canvas.height
    ((config.cannyLow : ℚ) : ℝ) ((config.cannyHigh : ℚ) : ℝ)
  if 0 < config.dilationIterations then
    applyDilation edgeData canvas.width canvas.height config.dilationIterations
  else edgeData

/-- The best rectangle the pipeline selects on `canvas`. -/
noncomputable def pipelineBestRect (canvas : Canvas) (config : CropConfig) :
    Option CandidateRect :=
  findBestRectangle (findContours (pipelineEdges canvas config) canvas.width canvas.height)
    canvas.width canvas.height config.minAreaPercent

/-- `processImageWithJavaScript`. -/
noncomputable def processImageWithJavaScript (canvas : Canvas) (config : CropConfig) :
    PipelineOutput :=
  assembleResult canvas config (pipelineBestRect canvas config)

/-- A decoded source image; `scaledData` is the pixel content the browser
draws onto the scaled canvas (`drawImage` resampling is
environment-provided). -/
structure SourceImage where
  width : ℕ
  height : ℕ
  scaledData : ℕ → ℕ

/-- The two rejection reasons of `cropToInnerRectangle`. -/
inductive PipelineError where
  | loadFailed
  | noCanvasContext
deriving DecidableEq

/-- `scale = Math.min(1, 1400 / Math.max(img.width, img.height))`; for the
degenerate `0 × 0` image the quotient is `Infinity` and the minimum is `1`. -/
def scaleFactor (width height : ℕ) : ℚ :=
  if max width height = 0 then 1 else min 1 (1400 / (max width height : ℚ))

/-- The scaled canvas the pipeline operates on. -/
def scaledCanvas (img : SourceImage) : Canvas :=
  ⟨(round ((img.width : ℚ) * scaleFactor img.width img.height)).toNat,
   (round ((img.height : ℚ) * scaleFactor img.width img.height)).toNat,
   img.scaledData⟩

/-- The `cropToInnerRectangle` control flow, parameterised over the result of
decoding, the availability of the 2d context, and the processing call (whose
runtime exceptions the inner `try` observes as `Except.error`): decode
failure rejects, a missing context rejects, and a processing failure resolves
with the unmodified scaled canvas. -/
def cropToInnerRectangleWith (decoded : Option SourceImage) (ctxAvailable : Bool)
    (process : Canvas → CropConfig → Except Unit PipelineOutput) (config : CropConfig) :
    Except PipelineError PipelineOutput :=
  match decoded with
  | none => .error .loadFailed
  | some img =>
    if ctxAvailable then
      let canvas := scaledCanvas img
      match process canvas config with
      | .ok result => .ok result
      | .error _ => .ok ⟨.canvasPng canvas, canvas.width, canvas.height⟩
    else .error .noCanvasContext

/-- `cropToInnerRectangle` with the processing call that never throws (the
idealised semantics of the embedded total stages). -/
noncomputable def cropToInnerRectangle (decoded : Option SourceImage)
    (ctxAvailable : Bool) (config : CropConfig) : Except PipelineError PipelineOutput :=
  cropToInnerRectangleWith decoded ctxAvailable
    (fun canvas cfg => .ok (processImageWithJavaScript canvas cfg)) config

/-!
## Pointwise characterisation of the dilation folds
-/

/-- A left fold of `255`-writes over a list of indices, applied at a point. -/
theorem foldl_update255_apply (l : List ℕ) (acc : ℕ → ℕ) (i : ℕ) :
    (l.foldl (fun f j => Function.update f j 255) acc) i = if i ∈ l then 255 else acc i := by
  induction l generalizing acc with
  | nil => simp
  | cons j l ih =>
    simp only [List.foldl_cons, ih, List.mem_cons]
    by_cases hl : i ∈ l
    · simp [hl]
    · by_cases hj : i = j
      · subst hj; simp [hl]
      · simp [hj, hl, Function.update_noteq hj]

/-- A guarded scan of `255`-writes over any cell list, applied at a point. -/
theorem foldl_write_apply {α : Type} (L : List α) (Q : α → Prop) [DecidablePred Q]
    (ws : α → List ℕ) (acc : ℕ → ℕ) (i : ℕ) :
    (L.foldl (fun a x => if Q x then (ws x).foldl (fun f j => Function.update f j 255) a else a)
        acc) i
      = if ∃ x ∈ L, Q x ∧ i ∈ ws x then 255 else acc i := by
  induction L generalizing acc with
  | nil => simp
  | cons x L ih =>
    simp only [List.foldl_cons, ih, List.mem_cons]
    by_cases hL : ∃ y ∈ L, Q y ∧ i ∈ ws y
    · have hc : ∃ y, (y = x ∨ y ∈ L) ∧ Q y ∧ i ∈ ws y := by
        obtain ⟨y, hy, h2⟩ := hL
        exact ⟨y, Or.inr hy, h2⟩
      simp [hL, hc]
    · by_cases hQ : Q x
      · by_cases hw : i ∈ ws x
        · have hc : ∃ y, (y = x ∨ y ∈ L) ∧ Q y ∧ i ∈ ws y := ⟨x, Or.inl rfl, hQ, hw⟩
          simp [hL, hc, hQ, foldl_update255_apply, hw]
        · have hc : ¬ ∃ y, (y = x ∨ y ∈ L) ∧ Q y ∧ i ∈ ws y := by
            rintro ⟨y, (rfl | hy), h2, h3⟩
            exacts [hw h3, hL ⟨y, hy, h2, h3⟩]
          simp [hL, hc, hQ, foldl_update255_apply, hw]
      · have hc : ¬ ∃ y, (y = x ∨ y ∈ L) ∧ Q y ∧ i ∈ ws y := by
          rintro ⟨y, (rfl | hy), h2, h3⟩
          exacts [hQ h2, hL ⟨y, hy, h2, h3⟩]
        simp [hL, hc, hQ]

/-- The write indices of one dilated pixel. -/
def dilateTargets (width : ℕ) (p : ℕ × ℕ) : List ℕ :=
  neighborOffsets.map fun d => (((p.2 : ℤ) + d.1).toNat) * width + ((p.1 : ℤ) + d.2).toNat

/-- `dilateWrite` as a fold of writes over `dilateTargets`. -/
theorem dilateWrite_eq_foldl (acc : ℕ → ℕ) (width : ℕ) (p : ℕ × ℕ) :
    dilateWrite acc width p
      = (dilateTargets width p).foldl (fun f j => Function.update f j 255) acc := by
  simp [dilateWrite, dilateTargets, List.foldl_map]

/-- `dilateStep`, applied at a point: `255` exactly at the neighbourhood
indices of the set interior pixels, the copied old value elsewhere. -/
theorem dilateStep_apply (width height : ℕ) (cur : ℕ → ℕ) (i : ℕ) :
    dilateStep width height cur i
      = if ∃ p ∈ interiorCells width height,
            cur (p.2 * width + p.1) = 255 ∧ i ∈ dilateTargets width p
        then 255 else cur i := by
  have h1 : dilateStep width height cur
      = (interiorCells width height).foldl
          (fun a p => if cur (p.2 * width + p.1) = 255 then
            (dilateTargets width p).foldl (fun f j => Function.update f j 255) a else a) cur := by
    have hf : (fun (a : ℕ → ℕ) (p : ℕ × ℕ) =>
          if cur (p.2 * width + p.1) = 255 then dilateWrite a width p else a)
        = (fun a p => if cur (p.2 * width + p.1) = 255 then
            (dilateTargets width p).foldl (fun f j => Function.update f j 255) a else a) := by
      funext a p
      rw [dilateWrite_eq_foldl]
    unfold dilateStep
    rw [hf]
  rw [h1, foldl_write_apply]

/-- Membership in the interior cell list is the interior guard. -/
theorem mem_interiorCells {width height : ℕ} {p : ℕ × ℕ} :
    p ∈ interiorCells width height ↔ interiorPixel width height p.1 p.2 := by
  obtain ⟨x, y⟩ := p
  simp only [interiorCells, List.mem_flatMap, List.mem_map, List.mem_range'_1, interiorPixel,
    Prod.mk.injEq]
  constructor
  · rintro ⟨b, hb, a, ha, rfl, rfl⟩
    omega
  · rintro ⟨hx1, hx2, hy1, hy2⟩
    exact ⟨y, by omega, x, by omega, rfl, rfl⟩

/-- The offsets of the 8-neighbourhood as a finite set (spec vocabulary). -/
def specOffsets : Finset (ℤ × ℤ) := ({-1, 0, 1} : Finset ℤ) ×ˢ ({-1, 0, 1} : Finset ℤ)

theorem neighborOffsets_bounds : ∀ d ∈ neighborOffsets,
    -1 ≤ d.1 ∧ d.1 ≤ 1 ∧ -1 ≤ d.2 ∧ d.2 ≤ 1 := by decide

theorem neighborOffsets_mem_spec : ∀ d ∈ neighborOffsets, d ∈ specOffsets := by decide

theorem specOffsets_mem_list : ∀ d ∈ specOffsets, d ∈ neighborOffsets := by decide

/-- For a pixel away from the left and top border, membership in its write
indices is the integer neighbourhood equation. -/
theorem mem_dilateTargets {width : ℕ} {p : ℕ × ℕ} (hx : 1 ≤ p.1) (hy : 1 ≤ p.2) (i : ℕ) :
    i ∈ dilateTargets width p
      ↔ ∃ d ∈ neighborOffsets, (i : ℤ) = ((p.2 : ℤ) + d.1) * width + ((p.1 : ℤ) + d.2) := by
  unfold dilateTargets
  simp only [List.mem_map]
  constructor
  · rintro ⟨d, hd, rfl⟩
    refine ⟨d, hd, ?_⟩
    obtain ⟨h1, h2, h3, h4⟩ := neighborOffsets_bounds d hd
    have e1 : (0 : ℤ) ≤ (p.2 : ℤ) + d.1 := by omega
    have e2 : (0 : ℤ) ≤ (p.1 : ℤ) + d.2 := by omega
    push_cast [Int.toNat_of_nonneg e1, Int.toNat_of_nonneg e2]
    ring
  · rintro ⟨d, hd, hi⟩
    refine ⟨d, hd, ?_⟩
    obtain ⟨h1, h2, h3, h4⟩ := neighborOffsets_bounds d hd
    have e1 : (0 : ℤ) ≤ (p.2 : ℤ) + d.1 := by omega
    have e2 : (0 : ℤ) ≤ (p.1 : ℤ) + d.2 := by omega
    have : ((((p.2 : ℤ) + d.1).toNat * width + ((p.1 : ℤ) + d.2).toNat : ℕ) : ℤ) = (i : ℤ) := by
      push_cast [Int.toNat_of_nonneg e1, Int.toNat_of_nonneg e2]
      linear_combination -hi
    exact_mod_cast this

/-- The condition under which the spec description of one (amended) dilation
iteration writes `255` at index `i`: some currently-set interior pixel (both
coordinates between `1` and `dimension - 2`) has `i` in its 8-neighbourhood. -/
def dilateSpecCond (cur : ℕ → ℕ) (width height i : ℕ) : Prop :=
  ∃ x ∈ Finset.Icc 1 (width - 2), ∃ y ∈ Finset.Icc 1 (height - 2),
    cur (y * width + x) = 255 ∧
    ∃ d ∈ specOffsets, (i : ℤ) = ((y : ℤ) + d.1) * width + ((x : ℤ) + d.2)

instance (cur : ℕ → ℕ) (width height i : ℕ) : Decidable (dilateSpecCond cur width height i) := by
  unfold dilateSpecCond
  infer_instance

/-- One dilation iteration, written as the spec describes the amended claim:
every currently-set interior pixel of the current mask writes its whole
8-neighbourhood into a fresh copy of the mask; reads come from the unmodified
current mask. -/
def dilateSpecStep (cur : ℕ → ℕ) (width height : ℕ) : ℕ → ℕ := fun i =>
  if dilateSpecCond cur width height i then 255 else cur i

/-- The source iteration coincides with the interior-pixel description. -/
theorem dilateStep_eq_spec (width height : ℕ) (cur : ℕ → ℕ) :
    dilateStep width height cur = dilateSpecStep cur width height := by
  funext i
  rw [dilateStep_apply]
  simp only [dilateSpecStep, dilateSpecCond]
  refine if_congr ?_ rfl rfl
  constructor
  · rintro ⟨p, hp, hset, hi⟩
    obtain ⟨hx1, hx2, hy1, hy2⟩ := mem_interiorCells.mp hp
    rw [mem_dilateTargets hx1 hy1] at hi
    obtain ⟨d, hd, hi⟩ := hi
    refine ⟨p.1, ?_, p.2, ?_, hset, d, neighborOffsets_mem_spec d hd, hi⟩
    · rw [Finset.mem_Icc]; omega
    · rw [Finset.mem_Icc]; omega
  · rintro ⟨x, hx, y, hy, hset, d, hd, hi⟩
    rw [Finset.mem_Icc] at hx hy
    refine ⟨(x, y), ?_, hset, ?_⟩
    · rw [mem_interiorCells]
      exact ⟨by omega, by omega, by omega, by omega⟩
    · rw [mem_dilateTargets (by omega) (by omega)]
      exact ⟨d, specOffsets_mem_list d hd, hi⟩

/-- The condition of one dilation iteration as the original claim words it:
EVERY currently-set pixel of the mask (border pixels included) writes all of
its in-bounds neighbours. -/
def dilateClaimCond (cur : ℕ → ℕ) (width height i : ℕ) : Prop :=
  ∃ x ∈ Finset.range width, ∃ y ∈ Finset.range height,
    cur (y * width + x) = 255 ∧
    ∃ d ∈ specOffsets,
      (i : ℤ) = ((y : ℤ) + d.1) * width + ((x : ℤ) + d.2) ∧
      0 ≤ (x : ℤ) + d.2 ∧ (x : ℤ) + d.2 < width ∧ 0 ≤ (y : ℤ) + d.1 ∧ (y : ℤ) + d.1 < height

instance (cur : ℕ → ℕ) (width height i : ℕ) : Decidable (dilateClaimCond cur width height i) := by
  unfold dilateClaimCond
  infer_instance

/-- Modelled from the claim: dilation where each iteration dilates from every
currently-set pixel, not only from interior ones. -/
def dilateClaimStep (cur : ℕ → ℕ) (width height : ℕ) : ℕ → ℕ := fun i =>
  if dilateClaimCond cur width height i then 255 else cur i

/-- Iterating the claim's per-iteration description. -/
def claimDilation (edgeData : ℕ → ℕ) (width height iterations : ℕ) : ℕ → ℕ :=
  (fun cur => dilateClaimStep cur width height)^[iterations] edgeData

/-- A 3×3 mask whose only set pixel sits in the top-left corner. -/
def c6mask : ℕ → ℕ := fun i => if i = 0 then 255 else 0

/-- **C6, counterexample.** On a 3×3 mask whose only set pixel is the border
pixel `(0,0)`, one source dilation iteration leaves the mask unchanged
(pixel `(1,1)`, index `4`, stays `0`), while the claimed "dilate from every
currently-set pixel" iteration sets it to `255`: the source only dilates from
interior pixels, so the claim as stated is false. -/
theorem claimC6_counterexample :
    c6mask 0 = 255 ∧ applyDilation c6mask 3 3 1 4 = 0 ∧ claimDilation c6mask 3 3 1 4 = 255 := by
  refine ⟨rfl, by decide, by decide⟩

/-- **C6 (amended).** For every mask and every iteration count, `applyDilation`
is the `iterations`-fold composition of the per-iteration map that writes,
for every currently-set interior pixel of the current mask, all of its
8 neighbours into a fresh copy of the current mask (reads come from the
previous buffer, so an iteration never cascades within itself); with
`iterations = 0` the mask is returned pixel-identical. -/
theorem claimC6_dilation_iterations :
    ∀ (edgeData : ℕ → ℕ) (width height iterations i : ℕ),
      applyDilation edgeData width height iterations i
        = (fun cur => dilateSpecStep cur width height)^[iterations] edgeData i
      ∧ applyDilation edgeData width height 0 i = edgeData i := by
  intro e w h n i
  refine ⟨?_, rfl⟩
  have hstep : dilateStep w h = fun cur => dilateSpecStep cur w h :=
    funext fun cur => dilateStep_eq_spec w h cur
  show (dilateStep w h)^[n] e i = _
  rw [hstep]

/-- **C10.** Dilation never clears a pixel: every pixel set to `255` in the
input mask is still `255` after any number of dilation iterations. -/
theorem claimC10_dilation_monotone :
    ∀ (edgeData : ℕ → ℕ) (width height iterations i : ℕ),
      edgeData i = 255 → applyDilation edgeData width height iterations i = 255 := by
  intro e w h n
  induction n with
  | zero => intro i hi; exact hi
  | succ n ih =>
    intro i hi
    show (dilateStep w h)^[n+1] e i = 255
    rw [Function.iterate_succ_apply', dilateStep_apply]
    split
    · rfl
    · exact ih i hi

/-- **C10, witness.** The monotonicity theorem applied to the corner mask. -/
theorem claimC10_dilation_monotone_witness :
    c6mask 0 = 255 ∧ applyDilation c6mask 3 3 1 0 = 255 :=
  ⟨rfl, claimC10_dilation_monotone c6mask 3 3 1 0 rfl⟩

/-- A decoded 800×600 all-black source image. -/
def c3image : SourceImage := ⟨800, 600, fun _ => 0⟩

/-- **C3, counterexample.** With a successfully decoded image but no canvas 2d
context, the entry point rejects with the context error: a post-decode
failure that propagates to the caller instead of degrading to the fallback,
so decode failure is not the only propagated error. -/
theorem claimC3_counterexample :
    cropToInnerRectangleWith (some c3image) false
        (fun canvas cfg => .ok (processImageWithJavaScript canvas cfg)) DEFAULT_CROP_CONFIG
      = .error .noCanvasContext
    ∧ PipelineError.noCanvasContext ≠ PipelineError.loadFailed :=
  ⟨rfl, by decide⟩

/-- **C3 (amended).** The entry point rejects exactly when decoding fails or
the canvas context is unavailable; every failure raised by the processing
call itself (pixel reading through cropping) is caught and mapped to the
scaled-canvas fallback. -/
theorem claimC3_error_propagation :
    ∀ (decoded : Option SourceImage) (ctxAvailable : Bool)
      (process : Canvas → CropConfig → Except Unit PipelineOutput) (config : CropConfig),
      ((∃ e, cropToInnerRectangleWith decoded ctxAvailable process config = .error e)
        ↔ (decoded = none ∨ ctxAvailable = false))
      ∧ (∀ img, decoded = some img → ctxAvailable = true →
          (∃ e, process (scaledCanvas img) config = .error e) →
          cropToInnerRectangleWith decoded ctxAvailable process config
            = .ok ⟨.canvasPng (scaledCanvas img), (scaledCanvas img).width,
                (scaledCanvas img).height⟩) := by
  intro decoded ctx process config
  obtain (_ | img) := decoded
  · refine ⟨?_, ?_⟩
    · simp [cropToInnerRectangleWith]
    · rintro img h
      exact absurd h (by simp)
  · cases ctx
    · refine ⟨?_, ?_⟩
      · simp [cropToInnerRectangleWith]
      · rintro img2 h2 h3
        exact absurd h3 (by simp)
    · have hmain : cropToInnerRectangleWith (some img) true process config
          = match process (scaledCanvas img) config with
            | .ok r => .ok r
            | .error _ => .ok ⟨.canvasPng (scaledCanvas img), (scaledCanvas img).width,
                (scaledCanvas img).height⟩ := rfl
      cases hp : process (scaledCanvas img) config with
      | ok r =>
        refine ⟨?_, ?_⟩
        · rw [hmain, hp]
          simp
        · rintro img2 h2 - ⟨e, he⟩
          injection h2 with h2
          subst h2
          rw [hp] at he
          exact absurd he (by simp)
      | error e0 =>
        refine ⟨?_, ?_⟩
        · rw [hmain, hp]
          simp
        · rintro img2 h2 - -
          injection h2 with h2
          subst h2
          rw [hmain, hp]

/-- **C3, witness.** A processing failure on the decoded image degrades to
the scaled canvas. -/
theorem claimC3_error_propagation_witness :
    cropToInnerRectangleWith (some c3image) true (fun _ _ => .error ()) DEFAULT_CROP_CONFIG
      = .ok ⟨.canvasPng (scaledCanvas c3image), (scaledCanvas c3image).width,
          (scaledCanvas c3image).height⟩ :=
  (claimC3_error_propagation (some c3image) true (fun _ _ => .error ()) DEFAULT_CROP_CONFIG).2
    c3image rfl rfl ⟨(), rfl⟩

/-- A contour whose bounding box is the centered 600×400 rectangle of the
spec's 1000×800 example. -/
def demoContour : List (ℕ × ℕ) := [(200,200),(800,200),(200,600),(800,600)]

/-- The 1000×800 canvas of the spec's example. -/
def canvas1000 : Canvas := ⟨1000, 800, fun _ => 0⟩

/-- The pixel width of the image encoded in a data URL produced by the crop
stage (`none` for the uncropped canvas encoding). -/
def cropWidthOf : DataURL → Option ℚ
  | .cropPng _ _ _ w _ => some w
  | .canvasPng _ => none

/-- The pixel height of the image encoded in a data URL produced by the crop
stage. -/
def cropHeightOf : DataURL → Option ℚ
  | .cropPng _ _ _ _ h => some h
  | .canvasPng _ => none

theorem borderPad_demo : borderPadOf 1000 800 = 16 := by
  unfold borderPadOf
  norm_num [round_eq]
  decide

theorem bbox_demo : getBoundingRect demoContour = ⟨200, 200, 600, 400⟩ := by decide

/-- On the example contour the selector returns its rectangle. -/
theorem fbr_demo_eval :
    findBestRectangle [demoContour] 1000 800 20 = some (calculateMinAreaRect demoContour) := by
  have h1 : ¬ (demoContour.length < 4) := by decide
  have h2 : ¬ areaTooSmall (getBoundingRect demoContour) 1000 800 20 := by
    rw [bbox_demo]
    unfold areaTooSmall
    push_cast
    norm_num
  have h3 : ¬ hugsBorder (getBoundingRect demoContour) 1000 800 := by
    rw [bbox_demo]
    unfold hugsBorder
    rw [borderPad_demo]
    push_cast
    norm_num
  unfold findBestRectangle
  rw [fbrLoop, if_neg h1, if_neg h2, if_neg h3, if_pos trivial, fbrLoop]
  rfl

theorem rect_demo_x : (calculateMinAreaRect demoContour).x = 200 := by decide

theorem rect_demo_y : (calculateMinAreaRect demoContour).y = 200 := by decide

theorem rect_demo_width : (calculateMinAreaRect demoContour).width = 600 := by decide

theorem rect_demo_height : (calculateMinAreaRect demoContour).height = 400 := by decide

/-- **C2, counterexample.** On the spec's own example (a 1000×800 canvas with
a selected centered 600×400 rectangle, default config) the pipeline's result
carries `width = 600` and `height = 400` — the selected rectangle's
dimensions — while the cropped image it returns measures `580 × 380`
(the rectangle reduced by twice the clamped inset).  The returned width and
height are therefore NOT the pixel dimensions of the returned cropped image,
contrary to the claim. -/
theorem claimC2_counterexample :
    findBestRectangle [demoContour] 1000 800 20 = some (calculateMinAreaRect demoContour)
    ∧ (assembleResult canvas1000 DEFAULT_CROP_CONFIG
        (some (calculateMinAreaRect demoContour))).width = 600
    ∧ (assembleResult canvas1000 DEFAULT_CROP_CONFIG
        (some (calculateMinAreaRect demoContour))).height = 400
    ∧ cropWidthOf (assembleResult canvas1000 DEFAULT_CROP_CONFIG
        (some (calculateMinAreaRect demoContour))).imageUrl = some 580
    ∧ cropHeightOf (assembleResult canvas1000 DEFAULT_CROP_CONFIG
        (some (calculateMinAreaRect demoContour))).imageUrl = some 380
    ∧ (600 : ℚ) ≠ 580 ∧ (400 : ℚ) ≠ 380 := by
  refine ⟨fbr_demo_eval, rect_demo_width, rect_demo_height, ?_, ?_, by norm_num, by norm_num⟩
  · show cropWidthOf (cropWithPerspectiveTransform canvas1000 (calculateMinAreaRect demoContour)
        DEFAULT_CROP_CONFIG.insetMargin) = some 580
    simp only [cropWithPerspectiveTransform, cropWidthOf, rect_demo_x, rect_demo_width,
      DEFAULT_CROP_CONFIG, canvas1000]
    norm_num
  · show cropHeightOf (cropWithPerspectiveTransform canvas1000 (calculateMinAreaRect demoContour)
        DEFAULT_CROP_CONFIG.insetMargin) = some 380
    simp only [cropWithPerspectiveTransform, cropHeightOf, rect_demo_y, rect_demo_height,
      DEFAULT_CROP_CONFIG, canvas1000]
    norm_num

/-- **C2 (amended).** Whenever a rectangle is selected, the pipeline result
carries the selected rectangle's own width and height, while the cropped
image it returns is the rectangle reduced by twice the clamped inset
(`min(insetMargin, side/4)`) on each axis, with its origin moved inward by
that inset (for a non-negative inset and a rectangle lying inside the
canvas). -/
theorem claimC2_selected_dimensions :
    ∀ (canvas : Canvas) (config : CropConfig) (rect : CandidateRect),
      0 ≤ config.insetMargin →
      rect.x + rect.width ≤ canvas.width →
      rect.y + rect.height ≤ canvas.height →
      assembleResult canvas config (some rect)
        = ⟨.cropPng canvas
            ((rect.x : ℚ) + min config.insetMargin ((rect.width : ℚ) / 4))
            ((rect.y : ℚ) + min config.insetMargin ((rect.height : ℚ) / 4))
            ((rect.width : ℚ) - 2 * min config.insetMargin ((rect.width : ℚ) / 4))
            ((rect.height : ℚ) - 2 * min config.insetMargin ((rect.height : ℚ) / 4)),
           rect.width, rect.height⟩ := by
  intro canvas config rect hm hx hy
  have hx' : ((rect.x : ℚ) + (rect.width : ℚ)) ≤ (canvas.width : ℚ) := by
    exact_mod_cast Nat.cast_le.mpr hx
  have hy' : ((rect.y : ℚ) + (rect.height : ℚ)) ≤ (canvas.height : ℚ) := by
    exact_mod_cast Nat.cast_le.mpr hy
  have h0x : (0 : ℚ) ≤ min config.insetMargin ((rect.width : ℚ) / 4) :=
    le_min hm (by positivity)
  have h0y : (0 : ℚ) ≤ min config.insetMargin ((rect.height : ℚ) / 4) :=
    le_min hm (by positivity)
  have hqx : min config.insetMargin ((rect.width : ℚ) / 4) ≤ (rect.width : ℚ) / 4 :=
    min_le_right _ _
  have hqy : min config.insetMargin ((rect.height : ℚ) / 4) ≤ (rect.height : ℚ) / 4 :=
    min_le_right _ _
  show (⟨cropWithPerspectiveTransform canvas rect config.insetMargin,
      rect.width, rect.height⟩ : PipelineOutput) = _
  simp only [cropWithPerspectiveTransform]
  have e1 : max 0 ((rect.x : ℚ) + min config.insetMargin ((rect.width : ℚ) / 4))
      = (rect.x : ℚ) + min config.insetMargin ((rect.width : ℚ) / 4) :=
    max_eq_right (by positivity)
  have e2 : max 0 ((rect.y : ℚ) + min config.insetMargin ((rect.height : ℚ) / 4))
      = (rect.y : ℚ) + min config.insetMargin ((rect.height : ℚ) / 4) :=
    max_eq_right (by positivity)
  rw [e1, e2]
  have e3 : min ((canvas.width : ℚ) - ((rect.x : ℚ) + min config.insetMargin ((rect.width : ℚ) / 4)))
      ((rect.width : ℚ) - 2 * min config.insetMargin ((rect.width : ℚ) / 4))
      = (rect.width : ℚ) - 2 * min config.insetMargin ((rect.width : ℚ) / 4) :=
    min_eq_right (by linarith)
  have e4 : min ((canvas.height : ℚ) - ((rect.y : ℚ) + min config.insetMargin ((rect.height : ℚ) / 4)))
      ((rect.height : ℚ) - 2 * min config.insetMargin ((rect.height : ℚ) / 4))
      = (rect.height : ℚ) - 2 * min config.insetMargin ((rect.height : ℚ) / 4) :=
    min_eq_right (by linarith)
  rw [e3, e4]

/-- A concrete selected rectangle for the example (orientation `0`). -/
noncomputable def demoRect : CandidateRect := ⟨200, 200, 600, 400, 0⟩

/-- **C2, witness.** The amended theorem applied to the 1000×800 example. -/
theorem claimC2_selected_dimensions_witness :
    assembleResult canvas1000 DEFAULT_CROP_CONFIG (some demoRect)
      = ⟨.cropPng canvas1000 210 210 580 380, 600, 400⟩ := by
  have h := claimC2_selected_dimensions canvas1000 DEFAULT_CROP_CONFIG demoRect
    (by norm_num [DEFAULT_CROP_CONFIG]) (by norm_num [demoRect, canvas1000])
    (by norm_num [demoRect, canvas1000])
  rw [h]
  norm_num [demoRect, DEFAULT_CROP_CONFIG]

/-- The three-way filter a contour must pass inside `findBestRectangle`. -/
def codePasses (contour : List (ℕ × ℕ)) (width height : ℕ) (minAreaPercent : ℚ) : Prop :=
  ¬ contour.length < 4
  ∧ ¬ areaTooSmall (getBoundingRect contour) width height minAreaPercent
  ∧ ¬ hugsBorder (getBoundingRect contour) width height

/-- The update condition `!best || score > best.score`. -/
def beatsBest (best : Option (CandidateRect × ℝ)) (s : ℝ) : Prop :=
  match best with
  | none => True
  | some b => b.2 < s

theorem fbrLoop_cons_reject {width height : ℕ} {pct : ℚ} {best : Option (CandidateRect × ℝ)}
    {c : List (ℕ × ℕ)} {cs : List (List (ℕ × ℕ))}
    (hn : ¬ codePasses c width height pct) :
    fbrLoop width height pct best (c :: cs) = fbrLoop width height pct best cs := by
  rw [fbrLoop.eq_def]
  dsimp only
  by_cases h4 : c.length < 4
  · rw [if_pos h4]
  · rw [if_neg h4]
    by_cases ha : areaTooSmall (getBoundingRect c) width height pct
    · rw [if_pos ha]
    · rw [if_neg ha]
      by_cases hb : hugsBorder (getBoundingRect c) width height
      · rw [if_pos hb]
      · exact absurd ⟨h4, ha, hb⟩ hn

theorem fbrLoop_cons_take {width height : ℕ} {pct : ℚ} {best : Option (CandidateRect × ℝ)}
    {c : List (ℕ × ℕ)} {cs : List (List (ℕ × ℕ))}
    (hp : codePasses c width height pct) (hb : beatsBest best (contourScore c)) :
    fbrLoop width height pct best (c :: cs)
      = fbrLoop width height pct (some (calculateMinAreaRect c, contourScore c)) cs := by
  obtain ⟨h4, ha, hbr⟩ := hp
  rw [fbrLoop.eq_def]
  dsimp only
  rw [if_neg h4, if_neg ha, if_neg hbr]
  exact if_pos hb

theorem fbrLoop_cons_keep {width height : ℕ} {pct : ℚ} {best : Option (CandidateRect × ℝ)}
    {c : List (ℕ × ℕ)} {cs : List (List (ℕ × ℕ))}
    (hp : codePasses c width height pct) (hb : ¬ beatsBest best (contourScore c)) :
    fbrLoop width height pct best (c :: cs) = fbrLoop width height pct best cs := by
  obtain ⟨h4, ha, hbr⟩ := hp
  rw [fbrLoop.eq_def]
  dsimp only
  rw [if_neg h4, if_neg ha, if_neg hbr]
  exact if_neg hb

/-- Full characterisation of the selection loop: either nothing in `cs` beats
the incoming accumulator, or the result is the first maximal-score survivor
among `cs` (which also beats the accumulator). -/
theorem fbrLoop_char (width height : ℕ) (pct : ℚ) :
    ∀ (cs : List (List (ℕ × ℕ))) (best : Option (CandidateRect × ℝ)),
      (fbrLoop width height pct best cs = best
        ∧ ∀ c ∈ cs, codePasses c width height pct →
            ∃ bs, best = some bs ∧ contourScore c ≤ bs.2)
      ∨ (∃ pre c post, cs = pre ++ c :: post ∧ codePasses c width height pct
          ∧ fbrLoop width height pct best cs = some (calculateMinAreaRect c, contourScore c)
          ∧ (∀ d ∈ pre, codePasses d width height pct → contourScore d < contourScore c)
          ∧ (∀ d ∈ post, codePasses d width height pct → contourScore d ≤ contourScore c)
          ∧ (∀ bs, best = some bs → bs.2 < contourScore c)) := by
  intro cs
  induction cs with
  | nil =>
    intro best
    exact Or.inl ⟨rfl, by simp⟩
  | cons c cs ih =>
    intro best
    by_cases hp : codePasses c width height pct
    · by_cases hb : beatsBest best (contourScore c)
      · rcases ih (some (calculateMinAreaRect c, contourScore c)) with ⟨h1, h2⟩ | h
        · refine Or.inr ⟨[], c, cs, by simp, hp, ?_, by simp, ?_, ?_⟩
          · rw [fbrLoop_cons_take hp hb, h1]
          · intro d hd hdp
            obtain ⟨bs, hbs, hle⟩ := h2 d hd hdp
            injection hbs with hbs
            subst hbs
            exact hle
          · intro bs hbs
            subst hbs
            exact hb
        · obtain ⟨pre, c', post, hcs, hp', hres, hpre, hpost, hacc⟩ := h
          have hcc' : contourScore c < contourScore c' :=
            hacc (calculateMinAreaRect c, contourScore c) rfl
          refine Or.inr ⟨c :: pre, c', post, by simp [hcs], hp', ?_, ?_, hpost, ?_⟩
          · rw [fbrLoop_cons_take hp hb, hres]
          · intro d hd hdp
            rcases List.mem_cons.mp hd with rfl | hd'
            · exact hcc'
            · exact hpre d hd' hdp
          · intro bs hbs
            subst hbs
            exact lt_trans hb hcc'
      · have hbs0 : ∃ b0, best = some b0 ∧ contourScore c ≤ b0.2 := by
          cases best with
          | none => exact absurd trivial hb
          | some b0 => exact ⟨b0, rfl, le_of_not_lt hb⟩
        rcases ih best with ⟨h1, h2⟩ | h
        · refine Or.inl ⟨?_, ?_⟩
          · rw [fbrLoop_cons_keep hp hb, h1]
          · intro d hd hdp
            rcases List.mem_cons.mp hd with rfl | hd'
            · exact hbs0
            · exact h2 d hd' hdp
        · obtain ⟨pre, c', post, hcs, hp', hres, hpre, hpost, hacc⟩ := h
          obtain ⟨b0, hb0, hle0⟩ := hbs0
          refine Or.inr ⟨c :: pre, c', post, by simp [hcs], hp', ?_, ?_, hpost, hacc⟩
          · rw [fbrLoop_cons_keep hp hb, hres]
          · intro d hd hdp
            rcases List.mem_cons.mp hd with rfl | hd'
            · exact lt_of_le_of_lt hle0 (hacc b0 hb0)
            · exact hpre d hd' hdp
    · rcases ih best with ⟨h1, h2⟩ | h
      · refine Or.inl ⟨?_, ?_⟩
        · rw [fbrLoop_cons_reject hp, h1]
        · intro d hd hdp
          rcases List.mem_cons.mp hd with rfl | hd'
          · exact absurd hdp hp
          · exact h2 d hd' hdp
      · obtain ⟨pre, c', post, hcs, hp', hres, hpre, hpost, hacc⟩ := h
        refine Or.inr ⟨c :: pre, c', post, by simp [hcs], hp', ?_, ?_, hpost, hacc⟩
        · rw [fbrLoop_cons_reject hp, hres]
        · intro d hd hdp
          rcases List.mem_cons.mp hd with rfl | hd'
          · exact absurd hdp hp
          · exact hpre d hd' hdp

/-- **C5.** For contour lists whose members all have at least 4 points (as
every contour emitted by `findContours` does), the selector rejects exactly
the contours failing the area test or the border test, and returns the
rectangle of the maximal-score survivor, ties resolved in favour of the
first-encountered contour (earlier survivors score strictly less, later ones
at most as much). -/
theorem claimC5_findBestRectangle :
    ∀ (contours : List (List (ℕ × ℕ))) (width height : ℕ) (minAreaPercent : ℚ),
      (∀ c ∈ contours, 4 ≤ c.length) →
      ((findBestRectangle contours width height minAreaPercent = none
          ↔ ∀ c ∈ contours,
              areaTooSmall (getBoundingRect c) width height minAreaPercent
              ∨ hugsBorder (getBoundingRect c) width height)
        ∧ (∀ r, findBestRectangle contours width height minAreaPercent = some r →
            ∃ pre c post, contours = pre ++ c :: post
              ∧ ¬ areaTooSmall (getBoundingRect c) width height minAreaPercent
              ∧ ¬ hugsBorder (getBoundingRect c) width height
              ∧ r = calculateMinAreaRect c
              ∧ (∀ d ∈ pre, ¬ areaTooSmall (getBoundingRect d) width height minAreaPercent →
                  ¬ hugsBorder (getBoundingRect d) width height →
                  contourScore d < contourScore c)
              ∧ (∀ d ∈ post, ¬ areaTooSmall (getBoundingRect d) width height minAreaPercent →
                  ¬ hugsBorder (getBoundingRect d) width height →
                  contourScore d ≤ contourScore c))) := by
  intro contours width height pct h4
  have hpass : ∀ c ∈ contours, ((¬ areaTooSmall (getBoundingRect c) width height pct
      ∧ ¬ hugsBorder (getBoundingRect c) width height) → codePasses c width height pct) := by
    intro c hc ⟨ha, hb⟩
    have := h4 c hc
    exact ⟨by omega, ha, hb⟩
  rcases fbrLoop_char width height pct contours none with ⟨h1, h2⟩ | h
  · constructor
    · constructor
      · rintro - c hc
        by_contra hcon
        push_neg at hcon
        obtain ⟨bs, hbs, -⟩ := h2 c hc (hpass c hc hcon)
        exact Option.noConfusion hbs
      · rintro -
        unfold findBestRectangle
        rw [h1]
        rfl
    · intro r hr
      unfold findBestRectangle at hr
      rw [h1] at hr
      exact absurd hr (by simp)
  · obtain ⟨pre, c, post, hcs, hp, hres, hpre, hpost, -⟩ := h
    have hrsome : findBestRectangle contours width height pct = some (calculateMinAreaRect c) := by
      unfold findBestRectangle
      rw [hres]
      rfl
    constructor
    · constructor
      · intro hnone
        rw [hrsome] at hnone
        exact absurd hnone (by simp)
      · intro hall
        exfalso
        have hc : c ∈ contours := by
          rw [hcs]
          exact List.mem_append_right _ (List.mem_cons_self _ _)
        rcases hall c hc with ha | hb
        · exact hp.2.1 ha
        · exact hp.2.2 hb
    · intro r hr
      rw [hrsome] at hr
      injection hr with hr
      refine ⟨pre, c, post, hcs, hp.2.1, hp.2.2, hr.symm, ?_, ?_⟩
      · intro d hd ha hb
        have hdmem : d ∈ contours := by
          rw [hcs]
          exact List.mem_append_left _ hd
        exact hpre d hd (hpass d hdmem ⟨ha, hb⟩)
      · intro d hd ha hb
        have hdmem : d ∈ contours := by
          rw [hcs]
          exact List.mem_append_right _ (List.mem_cons_of_mem _ hd)
        exact hpost d hd (hpass d hdmem ⟨ha, hb⟩)

/-- **C5, witness.** The selector characterisation on the example contour. -/
theorem claimC5_findBestRectangle_witness :
    ((findBestRectangle [demoContour] 1000 800 20 = none
        ↔ ∀ c ∈ [demoContour],
            areaTooSmall (getBoundingRect c) 1000 800 20
            ∨ hugsBorder (getBoundingRect c) 1000 800)
      ∧ (∀ r, findBestRectangle [demoContour] 1000 800 20 = some r →
          ∃ pre c post, [demoContour] = pre ++ c :: post
            ∧ ¬ areaTooSmall (getBoundingRect c) 1000 800 20
            ∧ ¬ hugsBorder (getBoundingRect c) 1000 800
            ∧ r = calculateMinAreaRect c
            ∧ (∀ d ∈ pre, ¬ areaTooSmall (getBoundingRect d) 1000 800 20 →
                ¬ hugsBorder (getBoundingRect d) 1000 800 →
                contourScore d < contourScore c)
            ∧ (∀ d ∈ post, ¬ areaTooSmall (getBoundingRect d) 1000 800 20 →
                ¬ hugsBorder (getBoundingRect d) 1000 800 →
                contourScore d ≤ contourScore c))) :=
  claimC5_findBestRectangle [demoContour] 1000 800 20 (by decide)

theorem calcRect_x (c : List (ℕ × ℕ)) : (calculateMinAreaRect c).x = (getBoundingRect c).x := rfl

theorem calcRect_y (c : List (ℕ × ℕ)) : (calculateMinAreaRect c).y = (getBoundingRect c).y := rfl

theorem calcRect_width (c : List (ℕ × ℕ)) :
    (calculateMinAreaRect c).width = (getBoundingRect c).width := rfl

theorem calcRect_height (c : List (ℕ × ℕ)) :
    (calculateMinAreaRect c).height = (getBoundingRect c).height := rfl

/-- A vertical-line contour: its bounding box has width `0`. -/
def c8contour : List (ℕ × ℕ) := [(5,5),(5,10),(5,15),(5,20)]

/-- A 100×100 canvas. -/
def canvas100 : Canvas := ⟨100, 100, fun _ => 0⟩

theorem bbox_c8 : getBoundingRect c8contour = ⟨5, 5, 0, 15⟩ := by decide

theorem borderPad_c8 : borderPadOf 100 100 = 2 := by
  unfold borderPadOf
  norm_num [round_eq]
  decide

/-- With `minAreaPercent = 0` the degenerate contour is selected. -/
theorem fbr_c8_eval :
    findBestRectangle [c8contour] 100 100 0 = some (calculateMinAreaRect c8contour) := by
  have h1 : ¬ (c8contour.length < 4) := by decide
  have h2 : ¬ areaTooSmall (getBoundingRect c8contour) 100 100 0 := by
    rw [bbox_c8]
    unfold areaTooSmall
    push_cast
    norm_num
  have h3 : ¬ hugsBorder (getBoundingRect c8contour) 100 100 := by
    rw [bbox_c8]
    unfold hugsBorder
    rw [borderPad_c8]
    push_cast
    norm_num
  unfold findBestRectangle
  rw [fbrLoop, if_neg h1, if_neg h2, if_neg h3, if_pos trivial, fbrLoop]
  rfl

/-- **C8, counterexample.** With `minAreaPercent = 0` the selector returns a
zero-width rectangle (from a vertical-line contour), and the crop stage then
produces a crop whose width is exactly `0`, although the inset margin (10) is
larger than half the rectangle's shorter side (0): the crop dimensions are
not always strictly positive for a selected rectangle. -/
theorem claimC8_counterexample :
    findBestRectangle [c8contour] 100 100 0 = some (calculateMinAreaRect c8contour)
    ∧ (calculateMinAreaRect c8contour).width = 0
    ∧ ((min (calculateMinAreaRect c8contour).width (calculateMinAreaRect c8contour).height : ℕ) : ℚ) / 2
        < 10
    ∧ cropWidthOf (cropWithPerspectiveTransform canvas100 (calculateMinAreaRect c8contour) 10)
        = some 0
    ∧ ¬ (0 : ℚ) < 0 := by
  have hw : (calculateMinAreaRect c8contour).width = 0 := by decide
  have hx : (calculateMinAreaRect c8contour).x = 5 := by decide
  refine ⟨fbr_c8_eval, hw, ?_, ?_, by norm_num⟩
  · have hmin : min (calculateMinAreaRect c8contour).width (calculateMinAreaRect c8contour).height
        = 0 := by decide
    rw [hmin]
    norm_num
  · simp only [cropWithPerspectiveTransform, cropWidthOf, hw, hx, canvas100]
    norm_num

/-- **C8 (amended).** For every selected rectangle, the inset is clamped to at
most one quarter of the rectangle's width and height; and when the image
dimensions and `minAreaPercent` are positive (so the area filter forces a
rectangle of positive width and height), the crop width and height are
strictly positive for every inset margin — in particular for inset margins
larger than half the rectangle's shorter side. -/
theorem claimC8_inset_clamped :
    ∀ (contours : List (List (ℕ × ℕ))) (canvas : Canvas) (minAreaPercent insetMargin : ℚ)
      (r : CandidateRect),
      0 < canvas.width → 0 < canvas.height → 0 < minAreaPercent →
      findBestRectangle contours canvas.width canvas.height minAreaPercent = some r →
      (min insetMargin ((r.width : ℚ) / 4) ≤ (r.width : ℚ) / 4
        ∧ min insetMargin ((r.height : ℚ) / 4) ≤ (r.height : ℚ) / 4)
      ∧ (∃ cw ch, cropWidthOf (cropWithPerspectiveTransform canvas r insetMargin) = some cw
          ∧ cropHeightOf (cropWithPerspectiveTransform canvas r insetMargin) = some ch
          ∧ 0 < cw ∧ 0 < ch) := by
  intro contours canvas pct inset r hW hH hpct hsel
  refine ⟨⟨min_le_right _ _, min_le_right _ _⟩, ?_⟩
  -- extract the selected contour and its filter facts
  rcases fbrLoop_char canvas.width canvas.height pct contours none with ⟨h1, -⟩ | h
  · exfalso
    unfold findBestRectangle at hsel
    rw [h1] at hsel
    exact Option.noConfusion hsel
  obtain ⟨pre, c, post, -, hp, hres, -, -, -⟩ := h
  have hr : r = calculateMinAreaRect c := by
    unfold findBestRectangle at hsel
    rw [hres] at hsel
    injection hsel with hsel
    exact hsel.symm
  obtain ⟨-, harea, hborder⟩ := hp
  -- the area filter forces positive width and height
  have harea' : ((canvas.width * canvas.height : ℕ) : ℚ) * (pct / 100)
      ≤ (((getBoundingRect c).width * (getBoundingRect c).height : ℕ) : ℚ) :=
    not_lt.mp harea
  have hWH : 0 < canvas.width * canvas.height := Nat.mul_pos hW hH
  have hlhs : (0 : ℚ) < ((canvas.width * canvas.height : ℕ) : ℚ) * (pct / 100) := by
    apply mul_pos
    · exact_mod_cast hWH
    · positivity
  have hprod : 0 < (getBoundingRect c).width * (getBoundingRect c).height := by
    by_contra hz
    push_neg at hz
    have h0 : (getBoundingRect c).width * (getBoundingRect c).height = 0 := by omega
    rw [h0] at harea'
    push_cast at harea' hlhs
    linarith
  have hbw : 1 ≤ (getBoundingRect c).width := by
    rcases Nat.eq_zero_or_pos (getBoundingRect c).width with hz | hz
    · rw [hz] at hprod
      simp at hprod
    · exact hz
  have hbh : 1 ≤ (getBoundingRect c).height := by
    rcases Nat.eq_zero_or_pos (getBoundingRect c).height with hz | hz
    · rw [hz] at hprod
      simp at hprod
    · exact hz
  -- the border filter puts the rectangle strictly inside the canvas
  have hborder' : ¬ ((getBoundingRect c).x ≤ borderPadOf canvas.width canvas.height
      ∨ (getBoundingRect c).y ≤ borderPadOf canvas.width canvas.height
      ∨ (canvas.width : ℤ) - borderPadOf canvas.width canvas.height
          ≤ (((getBoundingRect c).x + (getBoundingRect c).width : ℕ) : ℤ)
      ∨ (canvas.height : ℤ) - borderPadOf canvas.width canvas.height
          ≤ (((getBoundingRect c).y + (getBoundingRect c).height : ℕ) : ℤ)) := hborder
  push_neg at hborder'
  obtain ⟨-, -, hxr, hyr⟩ := hborder'
  have hxW : (getBoundingRect c).x + (getBoundingRect c).width < canvas.width := by
    have hpad : (0 : ℤ) ≤ borderPadOf canvas.width canvas.height := Int.ofNat_nonneg _
    omega
  have hyH : (getBoundingRect c).y + (getBoundingRect c).height < canvas.height := by
    have hpad : (0 : ℤ) ≤ borderPadOf canvas.width canvas.height := Int.ofNat_nonneg _
    omega
  -- positivity of the crop dimensions
  subst hr
  have hbw' : 1 ≤ (calculateMinAreaRect c).width := by rw [calcRect_width]; exact hbw
  have hbh' : 1 ≤ (calculateMinAreaRect c).height := by rw [calcRect_height]; exact hbh
  have hxW' : (calculateMinAreaRect c).x + (calculateMinAreaRect c).width < canvas.width := by
    rw [calcRect_x, calcRect_width]; exact hxW
  have hyH' : (calculateMinAreaRect c).y + (calculateMinAreaRect c).height < canvas.height := by
    rw [calcRect_y, calcRect_height]; exact hyH
  refine ⟨_, _, rfl, rfl, ?_, ?_⟩
  · apply lt_min
    · have hmax : max 0 (((calculateMinAreaRect c).x : ℚ)
          + min inset (((calculateMinAreaRect c).width : ℚ) / 4)) < (canvas.width : ℚ) := by
        apply max_lt
        · exact_mod_cast hW
        · have h1 : min inset (((calculateMinAreaRect c).width : ℚ) / 4)
              ≤ ((calculateMinAreaRect c).width : ℚ) / 4 := min_le_right _ _
          have h2 : (1 : ℚ) ≤ ((calculateMinAreaRect c).width : ℚ) := by exact_mod_cast hbw'
          have h3 : (((calculateMinAreaRect c).x : ℚ) + ((calculateMinAreaRect c).width : ℚ))
              < (canvas.width : ℚ) := by exact_mod_cast hxW'
          linarith
      linarith
    · have h1 : min inset (((calculateMinAreaRect c).width : ℚ) / 4)
          ≤ ((calculateMinAreaRect c).width : ℚ) / 4 := min_le_right _ _
      have h2 : (1 : ℚ) ≤ ((calculateMinAreaRect c).width : ℚ) := by exact_mod_cast hbw'
      linarith
  · apply lt_min
    · have hmax : max 0 (((calculateMinAreaRect c).y : ℚ)
          + min inset (((calculateMinAreaRect c).height : ℚ) / 4)) < (canvas.height : ℚ) := by
        apply max_lt
        · exact_mod_cast hH
        · have h1 : min inset (((calculateMinAreaRect c).height : ℚ) / 4)
              ≤ ((calculateMinAreaRect c).height : ℚ) / 4 := min_le_right _ _
          have h2 : (1 : ℚ) ≤ ((calculateMinAreaRect c).height : ℚ) := by exact_mod_cast hbh'
          have h3 : (((calculateMinAreaRect c).y : ℚ) + ((calculateMinAreaRect c).height : ℚ))
              < (canvas.height : ℚ) := by exact_mod_cast hyH'
          linarith
      linarith
    · have h1 : min inset (((calculateMinAreaRect c).height : ℚ) / 4)
          ≤ ((calculateMinAreaRect c).height : ℚ) / 4 := min_le_right _ _
      have h2 : (1 : ℚ) ≤ ((calculateMinAreaRect c).height : ℚ) := by exact_mod_cast hbh'
      linarith

/-- **C8, witness.** The amended theorem applied to the 1000×800 example. -/
theorem claimC8_inset_clamped_witness :
    (min (10 : ℚ) (((calculateMinAreaRect demoContour).width : ℚ) / 4)
        ≤ ((calculateMinAreaRect demoContour).width : ℚ) / 4
      ∧ min (10 : ℚ) (((calculateMinAreaRect demoContour).height : ℚ) / 4)
        ≤ ((calculateMinAreaRect demoContour).height : ℚ) / 4)
    ∧ (∃ cw ch,
        cropWidthOf (cropWithPerspectiveTransform canvas1000 (calculateMinAreaRect demoContour) 10)
          = some cw
        ∧ cropHeightOf (cropWithPerspectiveTransform canvas1000 (calculateMinAreaRect demoContour) 10)
          = some ch
        ∧ 0 < cw ∧ 0 < ch) :=
  claimC8_inset_clamped [demoContour] canvas1000 20 10 (calculateMinAreaRect demoContour)
    (by norm_num [canvas1000]) (by norm_num [canvas1000]) (by norm_num) fbr_demo_eval

/-- The four direction classes of non-maximum suppression. -/
inductive GradBin where
  | horiz
  | diagNWSE
  | vert
  | diagNESW
deriving DecidableEq

/-- The source's direction tests, as a quantization function. -/
noncomputable def quantizeDirection (d : ℝ) : GradBin :=
  if -(Real.pi/8) ≤ d ∧ d < Real.pi/8 then .horiz
  else if Real.pi/8 ≤ d ∧ d < 3*Real.pi/8 then .diagNWSE
  else if 3*Real.pi/8 ≤ d ∧ d < 5*Real.pi/8 then .vert
  else .diagNESW

/-- Modelled from the spec: a quantization of the gradient direction into
four 45°-wide bins (horizontal, two diagonals, vertical) that together cover
all possible directions — the direction is reduced modulo 180° (gradient
orientation) and split at odd multiples of 22.5°. -/
noncomputable def specQuantize45 (d : ℝ) : GradBin :=
  let t := d - Real.pi * ⌊d / Real.pi⌋
  if t < Real.pi/8 then .horiz
  else if t < 3*Real.pi/8 then .diagNWSE
  else if t < 5*Real.pi/8 then .vert
  else if t < 7*Real.pi/8 then .diagNESW
  else .horiz

/-- **C4, counterexample.** The straight-down gradient direction `-π/2` is a
vertical direction, and under any four-45°-wide-bins quantization covering
all directions it falls in the vertical bin (the spec-modelled
`specQuantize45` confirms this); but the source's direction tests send it to
the second-diagonal branch, whose catch-all `else` actually spans 225° of
directions.  The claimed binning is therefore not what the code computes. -/
theorem claimC4_counterexample :
    quantizeDirection (-(Real.pi/2)) = .diagNESW
    ∧ specQuantize45 (-(Real.pi/2)) = .vert
    ∧ GradBin.diagNESW ≠ GradBin.vert := by
  have hπ := Real.pi_pos
  refine ⟨?_, ?_, by decide⟩
  · unfold quantizeDirection
    rw [if_neg (by rintro ⟨ha, -⟩; linarith), if_neg (by rintro ⟨ha, -⟩; linarith),
      if_neg (by rintro ⟨ha, -⟩; linarith)]
  · unfold specQuantize45
    have hdiv : (-(Real.pi/2)) / Real.pi = -(1/2 : ℝ) := by
      field_simp
      ring
    have hfloor : ⌊(-(Real.pi/2)) / Real.pi⌋ = -1 := by
      rw [hdiv]
      norm_num [Int.floor_eq_iff]
    rw [hfloor]
    have ht : (-(Real.pi/2)) - Real.pi * ((-1 : ℤ) : ℝ) = Real.pi/2 := by
      push_cast
      ring
    rw [ht]
    rw [if_neg (by linarith), if_neg (by linarith), if_pos (by linarith)]

/-- **C4 (amended).** The gradient direction is quantized into four bins, of
which the first three are the 45°-wide intervals `[-π/8, π/8)` (horizontal),
`[π/8, 3π/8)` (NW–SE diagonal) and `[3π/8, 5π/8)` (vertical), while the
fourth is the catch-all complement `(-∞, -π/8) ∪ [5π/8, ∞)` compared along
the NE–SW diagonal; the two neighbours along the (quantized) direction are
compared, the pixel survives exactly when its magnitude is `≥` both
directional neighbours (ties retain the pixel), and a surviving pixel is
classified `255` when `magnitude > high`, `128` when `magnitude > low`,
`0` otherwise. -/
theorem claimC4_nms_quantization :
    (∀ d : ℝ,
      (quantizeDirection d = .horiz ↔ (-(Real.pi/8) ≤ d ∧ d < Real.pi/8))
      ∧ (quantizeDirection d = .diagNWSE ↔ (Real.pi/8 ≤ d ∧ d < 3*Real.pi/8))
      ∧ (quantizeDirection d = .vert ↔ (3*Real.pi/8 ≤ d ∧ d < 5*Real.pi/8))
      ∧ (quantizeDirection d = .diagNESW ↔ (d < -(Real.pi/8) ∨ 5*Real.pi/8 ≤ d)))
    ∧ (∀ (mag : ℕ → ℝ) (d : ℝ) (width index : ℕ),
        nmsNeighbors mag d width index
          = match quantizeDirection d with
            | .horiz => (mag (index - 1), mag (index + 1))
            | .diagNWSE => (mag (index - width - 1), mag (index + width + 1))
            | .vert => (mag (index - width), mag (index + width))
            | .diagNESW => (mag (index - width + 1), mag (index + width - 1)))
    ∧ (∀ (mag dir : ℕ → ℝ) (low high : ℝ) (width x y : ℕ),
        (suppressedAt mag dir low high width x y = 255
          ↔ ((nmsNeighbors mag (dir (y*width+x)) width (y*width+x)).1 ≤ mag (y*width+x)
            ∧ (nmsNeighbors mag (dir (y*width+x)) width (y*width+x)).2 ≤ mag (y*width+x)
            ∧ high < mag (y*width+x)))
        ∧ (suppressedAt mag dir low high width x y = 128
          ↔ ((nmsNeighbors mag (dir (y*width+x)) width (y*width+x)).1 ≤ mag (y*width+x)
            ∧ (nmsNeighbors mag (dir (y*width+x)) width (y*width+x)).2 ≤ mag (y*width+x)
            ∧ ¬ high < mag (y*width+x) ∧ low < mag (y*width+x)))
        ∧ (nmsNeighbors mag (dir (y*width+x)) width (y*width+x)
              = (mag (y*width+x), mag (y*width+x)) →
            suppressedAt mag dir low high width x y
              = if high < mag (y*width+x) then 255
                else if low < mag (y*width+x) then 128 else 0)) := by
  have hπ := Real.pi_pos
  refine ⟨?_, ?_, ?_⟩
  · intro d
    unfold quantizeDirection
    split_ifs with h1 h2 h3
    · obtain ⟨h1a, h1b⟩ := h1
      refine ⟨by simp [h1a, h1b], ?_, ?_, ?_⟩
      · exact iff_of_false (by decide) (by rintro ⟨ha, -⟩; linarith)
      · exact iff_of_false (by decide) (by rintro ⟨ha, -⟩; linarith)
      · exact iff_of_false (by decide) (by rintro (ha | ha) <;> linarith)
    · obtain ⟨h2a, h2b⟩ := h2
      refine ⟨?_, by simp [h2a, h2b], ?_, ?_⟩
      · exact iff_of_false (by decide) (by rintro ⟨-, hb⟩; linarith)
      · exact iff_of_false (by decide) (by rintro ⟨ha, -⟩; linarith)
      · exact iff_of_false (by decide) (by rintro (ha | ha) <;> linarith)
    · obtain ⟨h3a, h3b⟩ := h3
      refine ⟨?_, ?_, by simp [h3a, h3b], ?_⟩
      · exact iff_of_false (by decide) (by rintro ⟨-, hb⟩; linarith)
      · exact iff_of_false (by decide) (by rintro ⟨-, hb⟩; linarith)
      · exact iff_of_false (by decide) (by rintro (ha | ha) <;> linarith)
    · rw [not_and_or, not_le, not_lt] at h1 h2 h3
      refine ⟨?_, ?_, ?_, ?_⟩
      · exact iff_of_false (by decide) (fun h => by
          rcases h1 with ha | ha
          · rcases h2 with hb | hb
            · linarith [h.1, h.2]
            · linarith [h.2]
          · linarith [h.2])
      · exact iff_of_false (by decide) (fun h => by
          rcases h2 with hb | hb
          · exact absurd h.1 (not_le.mpr hb)
          · linarith [h.2])
      · exact iff_of_false (by decide) (fun h => by
          rcases h3 with hc | hc
          · exact absurd h.1 (not_le.mpr hc)
          · linarith [h.2])
      · refine iff_of_true rfl ?_
        by_cases hd : d < -(Real.pi/8)
        · exact Or.inl hd
        · push_neg at hd
          rcases h1 with ha | ha
          · linarith
          · rcases h2 with hb | hb
            · linarith
            · rcases h3 with hc | hc
              · linarith
              · exact Or.inr hc
  · intro mag d width index
    unfold nmsNeighbors quantizeDirection
    split_ifs <;> rfl
  · intro mag dir low high width x y
    refine ⟨?_, ?_, ?_⟩
    · simp only [suppressedAt]
      split_ifs with hc h255 hlow
      · simp only [hc.1, hc.2, h255, and_true, true_and]
      · exact iff_of_false (by norm_num) (by rintro ⟨-, -, hh⟩; exact h255 hh)
      · exact iff_of_false (by norm_num) (by rintro ⟨-, -, hh⟩; exact h255 hh)
      · exact iff_of_false (by norm_num) (by rintro ⟨ha, hb, -⟩; exact hc ⟨ha, hb⟩)
    · simp only [suppressedAt]
      split_ifs with hc h255 hlow
      · exact iff_of_false (by norm_num) (by rintro ⟨-, -, hno, -⟩; exact hno h255)
      · simp only [hc.1, hc.2, h255, hlow, not_false_iff, and_true, true_and]
      · exact iff_of_false (by norm_num) (by rintro ⟨-, -, -, hl⟩; exact hlow hl)
      · exact iff_of_false (by norm_num) (by rintro ⟨ha, hb, -⟩; exact hc ⟨ha, hb⟩)
    · intro htie
      simp only [suppressedAt]
      rw [htie]
      exact if_pos ⟨le_refl _, le_refl _⟩

/-- On an all-zero magnitude array every neighbour pair is `(0, 0)`. -/
theorem nmsNeighbors_const_zero (d : ℝ) (width index : ℕ) :
    nmsNeighbors (fun _ => 0) d width index = (0, 0) := by
  unfold nmsNeighbors
  split_ifs <;> rfl

/-- **C4, witness.** The tie-retention case on an all-zero magnitude array:
the pixel ties with both neighbours, survives, and is classified `0` since
its magnitude exceeds neither threshold. -/
theorem claimC4_nms_quantization_witness :
    suppressedAt (fun _ => 0) (fun _ => 0) 60 140 5 1 1 = 0 := by
  have h := (claimC4_nms_quantization.2.2 (fun _ => 0) (fun _ => 0) 60 140 5 1 1).2.2
    (nmsNeighbors_const_zero _ _ _)
  rw [h]
  norm_num

/-- A fold whose step fixes every state is the identity. -/
theorem foldl_const {α β : Type} (f : β → α → β) (init : β) (l : List α)
    (h : ∀ b a, a ∈ l → f b a = b) : l.foldl f init = init := by
  induction l generalizing init with
  | nil => rfl
  | cons a l ih =>
    rw [List.foldl_cons, h init a (List.mem_cons_self _ _)]
    exact ih init fun b a' ha' => h b a' (List.mem_cons_of_mem _ ha')

theorem convertToGrayscale_zero : convertToGrayscale (fun _ => 0) = fun _ => 0 := by
  funext j
  unfold convertToGrayscale
  norm_num

theorem applyGaussianBlur_zero (width height : ℕ) :
    applyGaussianBlur (fun _ => 0) width height = fun _ => 0 := by
  funext i
  unfold applyGaussianBlur
  dsimp only
  split_ifs
  · norm_num
  · rfl

theorem gradientMagnitude_zero (width height : ℕ) :
    gradientMagnitude (fun _ => 0) width height = fun _ => 0 := by
  funext i
  unfold gradientMagnitude
  dsimp only
  split_ifs
  · simp [sobelGx, sobelGy]
  · rfl

theorem suppressedAt_zero (dir : ℕ → ℝ) (low high : ℝ) (hl : ¬ low < 0) (hh : ¬ high < 0)
    (width x y : ℕ) :
    suppressedAt (fun _ => 0) dir low high width x y = 0 := by
  simp only [suppressedAt, nmsNeighbors_const_zero]
  rw [if_pos ⟨le_refl _, le_refl _⟩, if_neg hh, if_neg hl]

theorem suppressedData_zero (width height : ℕ) (low high : ℝ)
    (hl : ¬ low < 0) (hh : ¬ high < 0) :
    suppressedData (fun _ => 0) width height low high = fun _ => 0 := by
  funext i
  unfold suppressedData
  dsimp only
  split_ifs
  · rw [gradientMagnitude_zero]
    exact suppressedAt_zero _ low high hl hh _ _ _
  · rfl

theorem applyCannyEdgeDetection_zero (width height : ℕ) (low high : ℝ)
    (hl : ¬ low < 0) (hh : ¬ high < 0) :
    applyCannyEdgeDetection (fun _ => 0) width height low high = fun _ => 0 := by
  simp only [applyCannyEdgeDetection]
  rw [suppressedData_zero width height low high hl hh]
  apply foldl_const
  intro edge p hp
  unfold hysteresisStep
  rw [if_neg (by simp)]

theorem dilateStep_zero (width height : ℕ) :
    dilateStep width height (fun _ => 0) = fun _ => 0 := by
  funext i
  rw [dilateStep_apply]
  simp

theorem applyDilation_zero (width height n : ℕ) :
    applyDilation (fun _ => 0) width height n = fun _ => 0 := by
  induction n with
  | zero => rfl
  | succ n ih =>
    have h1 : applyDilation (fun _ => 0) width height (n+1)
        = dilateStep width height (applyDilation (fun _ => 0) width height n) :=
      Function.iterate_succ_apply' _ _ _
    rw [h1, ih, dilateStep_zero]

theorem findContours_zero (width height : ℕ) : findContours (fun _ => 0) width height = [] := by
  unfold findContours
  have h : (rowMajorCells width height).foldl (findContoursStep (fun _ => 0) width height)
      ((fun _ => 0), []) = ((fun _ => 0), []) := by
    apply foldl_const
    intro b p hp
    unfold findContoursStep
    rw [if_neg (by simp)]
  rw [h]

/-- On an all-black canvas no contour yields a qualifying rectangle. -/
theorem pipelineBestRect_zero (width height : ℕ) :
    pipelineBestRect ⟨width, height, fun _ => 0⟩ DEFAULT_CROP_CONFIG = none := by
  unfold pipelineBestRect
  simp only [pipelineEdges]
  rw [convertToGrayscale_zero, applyGaussianBlur_zero,
    applyCannyEdgeDetection_zero width height _ _ (by norm_num [DEFAULT_CROP_CONFIG])
      (by norm_num [DEFAULT_CROP_CONFIG]),
    if_pos (by norm_num [DEFAULT_CROP_CONFIG]), applyDilation_zero, findContours_zero]
  rfl

/-- **C1.** For every successfully decoded image: a processing-stage failure
resolves with the unmodified scaled canvas whose width and height equal the
scaled canvas dimensions exactly; and when no contour yields a qualifying
rectangle (`findBestRectangle` returns none), the pipeline returns the
scaled-but-uncropped canvas with exactly the canvas dimensions. -/
theorem claimC1_fallback :
    (∀ (img : SourceImage) (config : CropConfig)
        (process : Canvas → CropConfig → Except Unit PipelineOutput) (e : Unit),
        process (scaledCanvas img) config = .error e →
        cropToInnerRectangleWith (some img) true process config
          = .ok ⟨.canvasPng (scaledCanvas img), (scaledCanvas img).width,
              (scaledCanvas img).height⟩)
    ∧ (∀ (canvas : Canvas) (config : CropConfig),
        pipelineBestRect canvas config = none →
        processImageWithJavaScript canvas config
          = ⟨.canvasPng canvas, canvas.width, canvas.height⟩) := by
  constructor
  · intro img config process e he
    show (match process (scaledCanvas img) config with
      | .ok r => Except.ok r
      | .error _ => Except.ok ⟨.canvasPng (scaledCanvas img), (scaledCanvas img).width,
          (scaledCanvas img).height⟩) = _
    rw [he]
  · intro canvas config h
    unfold processImageWithJavaScript
    rw [h]
    rfl

/-- The all-black 4×4 canvas. -/
def zeroCanvas : Canvas := ⟨4, 4, fun _ => 0⟩

/-- The all-black 4×4 source image (small enough that scaling is identity). -/
def zeroImage : SourceImage := ⟨4, 4, fun _ => 0⟩

/-- **C1, witness.** A throwing processing stage and an all-black image both
yield the scaled-canvas fallback. -/
theorem claimC1_fallback_witness :
    cropToInnerRectangleWith (some zeroImage) true (fun _ _ => .error ()) DEFAULT_CROP_CONFIG
      = .ok ⟨.canvasPng (scaledCanvas zeroImage), (scaledCanvas zeroImage).width,
          (scaledCanvas zeroImage).height⟩
    ∧ processImageWithJavaScript zeroCanvas DEFAULT_CROP_CONFIG
      = ⟨.canvasPng zeroCanvas, zeroCanvas.width, zeroCanvas.height⟩ :=
  ⟨claimC1_fallback.1 zeroImage DEFAULT_CROP_CONFIG (fun _ _ => .error ()) () rfl,
   claimC1_fallback.2 zeroCanvas DEFAULT_CROP_CONFIG (pipelineBestRect_zero 4 4)⟩

/-- The flat index of pixel `p`. -/
def pixIdx (width : ℕ) (p : ℕ × ℕ) : ℕ := p.2 * width + p.1

/-- `p` lies inside the image. -/
def inBounds (width height : ℕ) (p : ℕ × ℕ) : Prop := p.1 < width ∧ p.2 < height

instance (width height : ℕ) (p : ℕ × ℕ) : Decidable (inBounds width height p) := by
  unfold inBounds; infer_instance

/-- `p` is a set pixel of the mask. -/
def isSetPix (edgeData : ℕ → ℕ) (width : ℕ) (p : ℕ × ℕ) : Prop :=
  edgeData (pixIdx width p) = 255

instance (edgeData : ℕ → ℕ) (width : ℕ) (p : ℕ × ℕ) :
    Decidable (isSetPix edgeData width p) := by
  unfold isSetPix; infer_instance

/-- 8-neighbourhood: Chebyshev distance at most 1. -/
def adjacent8 (p q : ℕ × ℕ) : Prop :=
  p.1 ≤ q.1 + 1 ∧ q.1 ≤ p.1 + 1 ∧ p.2 ≤ q.2 + 1 ∧ q.2 ≤ p.2 + 1

instance (p q : ℕ × ℕ) : Decidable (adjacent8 p q) := by
  unfold adjacent8; infer_instance

/-- One step of 8-connectivity into a set, in-bounds pixel. -/
def pixStep (edgeData : ℕ → ℕ) (width height : ℕ) (p q : ℕ × ℕ) : Prop :=
  adjacent8 p q ∧ inBounds width height q ∧ isSetPix edgeData width q

instance (edgeData : ℕ → ℕ) (width height : ℕ) (p q : ℕ × ℕ) :
    Decidable (pixStep edgeData width height p q) := by
  unfold pixStep; infer_instance

/-- `q` belongs to the 8-connected component of `p` in the mask. -/
def connected (edgeData : ℕ → ℕ) (width height : ℕ) (p q : ℕ × ℕ) : Prop :=
  Relation.ReflTransGen (pixStep edgeData width height) p q

/-- The candidate 8-neighbours of `p` (clamped at the image origin). -/
def neighborCands (p : ℕ × ℕ) : List (ℕ × ℕ) :=
  neighborOffsets.filterMap fun d =>
    let nx : ℤ := (p.1 : ℤ) + d.2
    let ny : ℤ := (p.2 : ℤ) + d.1
    if 0 ≤ nx ∧ 0 ≤ ny then some (nx.toNat, ny.toNat) else none

theorem pixIdx_inj {width height : ℕ} {p q : ℕ × ℕ} (hp : inBounds width height p)
    (hq : inBounds width height q) (h : pixIdx width p = pixIdx width q) : p = q := by
  obtain ⟨hp1, -⟩ := hp
  obtain ⟨hq1, -⟩ := hq
  unfold pixIdx at h
  have h1 : p.1 = q.1 := by
    have e1 : (p.2 * width + p.1) % width = p.1 := by
      rw [Nat.add_comm, Nat.add_mul_mod_self_right]
      exact Nat.mod_eq_of_lt hp1
    have e2 : (q.2 * width + q.1) % width = q.1 := by
      rw [Nat.add_comm, Nat.add_mul_mod_self_right]
      exact Nat.mod_eq_of_lt hq1
    rw [← e1, ← e2, h]
  have h2 : p.2 = q.2 := by
    have hw : 0 < width := Nat.pos_of_ne_zero fun hz => by omega
    rw [h1] at h
    have := Nat.add_right_cancel h
    exact Nat.eq_of_mul_eq_mul_right hw this
  exact Prod.ext h1 h2

theorem offs_mem_of_bounds : ∀ a b : ℤ, -1 ≤ a → a ≤ 1 → -1 ≤ b → b ≤ 1 →
    (a, b) ∈ neighborOffsets := by
  intro a b ha ha' hb hb'
  interval_cases a <;> interval_cases b <;> decide

theorem mem_neighborCands_of_adjacent {p q : ℕ × ℕ} (h : adjacent8 p q) :
    q ∈ neighborCands p := by
  obtain ⟨h1, h2, h3, h4⟩ := h
  unfold neighborCands
  rw [List.mem_filterMap]
  refine ⟨((q.2 : ℤ) - p.2, (q.1 : ℤ) - p.1), ?_, ?_⟩
  · exact offs_mem_of_bounds _ _ (by omega) (by omega) (by omega) (by omega)
  · rw [if_pos ⟨by omega, by omega⟩]
    have e1 : ((p.1 : ℤ) + ((q.1 : ℤ) - p.1)).toNat = q.1 := by omega
    have e2 : ((p.2 : ℤ) + ((q.2 : ℤ) - p.2)).toNat = q.2 := by omega
    rw [e1, e2]

/-- The pushed neighbours are exactly the admissible ones. -/
theorem mem_contourPushes {edgeData visited : ℕ → ℕ} {width height : ℕ} {p q : ℕ × ℕ} :
    q ∈ contourPushes edgeData visited width height p
      ↔ adjacent8 p q ∧ inBounds width height q
        ∧ visited (pixIdx width q) = 0 ∧ edgeData (pixIdx width q) = 255 := by
  unfold contourPushes
  rw [List.mem_filterMap]
  constructor
  · rintro ⟨d, hd, hsome⟩
    obtain ⟨b1, b2, b3, b4⟩ := neighborOffsets_bounds d hd
    by_cases hg : 0 ≤ (p.1 : ℤ) + d.2 ∧ (p.1 : ℤ) + d.2 < width
        ∧ 0 ≤ (p.2 : ℤ) + d.1 ∧ (p.2 : ℤ) + d.1 < height
    · rw [if_pos hg] at hsome
      obtain ⟨hg1, hg2, hg3, hg4⟩ := hg
      by_cases hv : visited (((p.2 : ℤ) + d.1).toNat * width + ((p.1 : ℤ) + d.2).toNat) = 0
          ∧ edgeData (((p.2 : ℤ) + d.1).toNat * width + ((p.1 : ℤ) + d.2).toNat) = 255
      · rw [if_pos hv] at hsome
        injection hsome with hsome
        subst hsome
        have hidx : pixIdx width (((p.1 : ℤ) + d.2).toNat, ((p.2 : ℤ) + d.1).toNat)
            = ((p.2 : ℤ) + d.1).toNat * width + ((p.1 : ℤ) + d.2).toNat := rfl
        refine ⟨⟨by omega, by omega, by omega, by omega⟩, ⟨by omega, by omega⟩, ?_, ?_⟩
        · rw [hidx]; exact hv.1
        · rw [hidx]; exact hv.2
      · rw [if_neg hv] at hsome
        exact Option.noConfusion hsome
    · rw [if_neg hg] at hsome
      exact Option.noConfusion hsome
  · rintro ⟨⟨h1, h2, h3, h4⟩, ⟨hb1, hb2⟩, hv, he⟩
    refine ⟨((q.2 : ℤ) - p.2, (q.1 : ℤ) - p.1), ?_, ?_⟩
    · exact offs_mem_of_bounds _ _ (by omega) (by omega) (by omega) (by omega)
    · have e1 : (p.1 : ℤ) + ((q.1 : ℤ) - p.1) = (q.1 : ℤ) := by ring
      have e2 : (p.2 : ℤ) + ((q.2 : ℤ) - p.2) = (q.2 : ℤ) := by ring
      rw [e1, e2, if_pos ⟨by omega, by exact_mod_cast hb1, by omega, by exact_mod_cast hb2⟩]
      have e3 : ((q.1 : ℤ)).toNat = q.1 := Int.toNat_natCast _
      have e4 : ((q.2 : ℤ)).toNat = q.2 := Int.toNat_natCast _
      rw [e3, e4]
      have hidx : (q.2 * width + q.1) = pixIdx width q := rfl
      rw [if_pos ⟨by rw [hidx]; exact hv, by rw [hidx]; exact he⟩]

theorem connected_target_props {edgeData : ℕ → ℕ} {width height : ℕ} {p q : ℕ × ℕ}
    (hp : inBounds width height p ∧ isSetPix edgeData width p)
    (hc : connected edgeData width height p q) :
    inBounds width height q ∧ isSetPix edgeData width q := by
  induction hc with
  | refl => exact hp
  | tail _ hstep _ => exact ⟨hstep.2.1, hstep.2.2⟩

theorem adjacent8_symm {p q : ℕ × ℕ} (h : adjacent8 p q) : adjacent8 q p := by
  obtain ⟨h1, h2, h3, h4⟩ := h
  exact ⟨h2, h1, h4, h3⟩

theorem connected_symm {edgeData : ℕ → ℕ} {width height : ℕ} {p q : ℕ × ℕ}
    (hp : inBounds width height p) (hps : isSetPix edgeData width p)
    (hc : connected edgeData width height p q) : connected edgeData width height q p := by
  induction hc with
  | refl => exact .refl
  | @tail b c hab hstep ih =>
    have hbprops : inBounds width height b ∧ isSetPix edgeData width b :=
      connected_target_props ⟨hp, hps⟩ hab
    exact Relation.ReflTransGen.head ⟨adjacent8_symm hstep.1, hbprops.1, hbprops.2⟩ ih

/-- Anything connected to a member of a neighbourhood-closed list stays in
the list. -/
theorem connected_subset_of_closed {edgeData : ℕ → ℕ} {width height : ℕ} {p : ℕ × ℕ}
    {S : List (ℕ × ℕ)} (hp : p ∈ S)
    (hclosed : ∀ a ∈ S, ∀ b ∈ neighborCands a,
      inBounds width height b → isSetPix edgeData width b → b ∈ S) :
    ∀ q, connected edgeData width height p q → q ∈ S := by
  intro q hq
  induction hq with
  | refl => exact hp
  | tail hab hstep ih =>
    exact hclosed _ ih _ (mem_neighborCands_of_adjacent hstep.1) hstep.2.1 hstep.2.2

theorem mem_rowMajorCells {width height : ℕ} {p : ℕ × ℕ} :
    p ∈ rowMajorCells width height ↔ inBounds width height p := by
  obtain ⟨x, y⟩ := p
  unfold rowMajorCells inBounds
  simp only [List.mem_flatMap, List.mem_map, List.mem_range, Prod.mk.injEq]
  constructor
  · rintro ⟨b, hb, a, ha, rfl, rfl⟩
    exact ⟨ha, hb⟩
  · rintro ⟨hx, hy⟩
    exact ⟨y, hy, x, hx, rfl, rfl⟩

section TraceCorrect

variable (edgeData : ℕ → ℕ) (width height : ℕ) (s : ℕ × ℕ) (V : ℕ → ℕ)

/-- The loop invariant of `traceContour`, relative to the start pixel `s` and
the visited mask `V` at entry: the visited mask grew by exactly the contour,
the contour is duplicate-free and inside the component of `s`, stack entries
are set in-bounds component members, every neighbour of a contour member is
in the contour or on the stack, and `s` itself has been captured. -/
def TInv (v : ℕ → ℕ) (stack contour : List (ℕ × ℕ)) : Prop :=
  (∀ i, v i = if ∃ q ∈ contour, pixIdx width q = i then 1 else V i)
  ∧ contour.Nodup
  ∧ (∀ q ∈ contour, inBounds width height q ∧ connected edgeData width height s q)
  ∧ (∀ q ∈ stack, inBounds width height q ∧ isSetPix edgeData width q
      ∧ connected edgeData width height s q)
  ∧ (∀ q ∈ contour, ∀ r, pixStep edgeData width height q r → (r ∈ contour ∨ r ∈ stack))
  ∧ (s ∈ contour ∨ s ∈ stack)

/-- Number of set, still-unvisited pixels of the image. -/
def unvisitedCount (v : ℕ → ℕ) : ℕ :=
  (((Finset.range width) ×ˢ (Finset.range height)).filter
    (fun q => edgeData (pixIdx width q) = 255 ∧ v (pixIdx width q) = 0)).card

theorem unvisitedCount_le (v : ℕ → ℕ) :
    unvisitedCount edgeData width height v ≤ width * height := by
  calc (((Finset.range width) ×ˢ (Finset.range height)).filter
      (fun q => edgeData (pixIdx width q) = 255 ∧ v (pixIdx width q) = 0)).card
      ≤ ((Finset.range width) ×ˢ (Finset.range height)).card := Finset.card_filter_le _ _
    _ = width * height := by rw [Finset.card_product, Finset.card_range, Finset.card_range]

theorem unvisitedCount_lt {v : ℕ → ℕ} {p : ℕ × ℕ} (hb : inBounds width height p)
    (hset : edgeData (pixIdx width p) = 255) (hv : v (pixIdx width p) = 0) :
    unvisitedCount edgeData width height (Function.update v (pixIdx width p) 1)
      < unvisitedCount edgeData width height v := by
  apply Finset.card_lt_card
  have hpmem : p ∈ ((Finset.range width) ×ˢ (Finset.range height)).filter
      (fun q => edgeData (pixIdx width q) = 255 ∧ v (pixIdx width q) = 0) := by
    rw [Finset.mem_filter, Finset.mem_product, Finset.mem_range, Finset.mem_range]
    exact ⟨⟨hb.1, hb.2⟩, hset, hv⟩
  have hpnot : p ∉ ((Finset.range width) ×ˢ (Finset.range height)).filter
      (fun q => edgeData (pixIdx width q) = 255
        ∧ Function.update v (pixIdx width p) 1 (pixIdx width q) = 0) := by
    rw [Finset.mem_filter]
    rintro ⟨-, -, hz⟩
    rw [Function.update_same] at hz
    exact one_ne_zero hz
  have hsub : ((Finset.range width) ×ˢ (Finset.range height)).filter
      (fun q => edgeData (pixIdx width q) = 255
        ∧ Function.update v (pixIdx width p) 1 (pixIdx width q) = 0)
      ⊆ ((Finset.range width) ×ˢ (Finset.range height)).filter
      (fun q => edgeData (pixIdx width q) = 255 ∧ v (pixIdx width q) = 0) := by
    intro q hq
    rw [Finset.mem_filter] at hq ⊢
    obtain ⟨hmem, hqe, hqv⟩ := hq
    by_cases heq : pixIdx width q = pixIdx width p
    · rw [heq, Function.update_same] at hqv
      exact absurd hqv one_ne_zero
    · rw [Function.update_noteq heq] at hqv
      exact ⟨hmem, hqe, hqv⟩
  exact (Finset.ssubset_iff_of_subset hsub).mpr ⟨p, hpmem, hpnot⟩

theorem contourPushes_length_le (v : ℕ → ℕ) (p : ℕ × ℕ) :
    (contourPushes edgeData v width height p).length ≤ 9 :=
  le_trans (List.length_filterMap_le _ _) (by rfl)

theorem traceLoop_cons_mark {fuel : ℕ} {v : ℕ → ℕ} {p : ℕ × ℕ}
    {rest contour : List (ℕ × ℕ)}
    (hcond : v (pixIdx width p) = 0 ∧ edgeData (pixIdx width p) = 255) :
    traceLoop edgeData width height (fuel+1) v (p :: rest) contour
      = traceLoop edgeData width height fuel (Function.update v (pixIdx width p) 1)
          ((contourPushes edgeData (Function.update v (pixIdx width p) 1) width height p).reverse
            ++ rest) (contour ++ [p]) := by
  rw [traceLoop.eq_def]
  dsimp only
  exact if_pos hcond

theorem traceLoop_cons_skip {fuel : ℕ} {v : ℕ → ℕ} {p : ℕ × ℕ}
    {rest contour : List (ℕ × ℕ)}
    (hcond : ¬ (v (pixIdx width p) = 0 ∧ edgeData (pixIdx width p) = 255)) :
    traceLoop edgeData width height (fuel+1) v (p :: rest) contour
      = traceLoop edgeData width height fuel v rest contour := by
  rw [traceLoop.eq_def]
  dsimp only
  exact if_neg hcond

end TraceCorrect

section TraceCorrect2

variable {edgeData : ℕ → ℕ} {width height : ℕ} {s : ℕ × ℕ} {V : ℕ → ℕ}

/-- Marking an unvisited set pixel preserves the invariant. -/
theorem TInv_mark (hV : ∀ q, connected edgeData width height s q → V (pixIdx width q) = 0)
    {v : ℕ → ℕ} {p : ℕ × ℕ} {rest contour : List (ℕ × ℕ)}
    (hinv : TInv edgeData width height s V v (p :: rest) contour)
    (hcond : v (pixIdx width p) = 0 ∧ edgeData (pixIdx width p) = 255) :
    TInv edgeData width height s V (Function.update v (pixIdx width p) 1)
      ((contourPushes edgeData (Function.update v (pixIdx width p) 1) width height p).reverse
        ++ rest) (contour ++ [p]) := by
  obtain ⟨hvis, hnodup, hcont, hstk, hfront, hstart⟩ := hinv
  have hp := hstk p (List.mem_cons_self _ _)
  have hpnotin : p ∉ contour := by
    intro hmem
    have h1 := hvis (pixIdx width p)
    rw [if_pos ⟨p, hmem, rfl⟩] at h1
    rw [hcond.1] at h1
    exact zero_ne_one h1
  refine ⟨?_, ?_, ?_, ?_, ?_, ?_⟩
  · intro i
    by_cases heq : i = pixIdx width p
    · subst heq
      rw [Function.update_same, if_pos ⟨p, by simp, rfl⟩]
    · rw [Function.update_noteq heq, hvis i]
      have hiff : (∃ q ∈ contour ++ [p], pixIdx width q = i)
          ↔ (∃ q ∈ contour, pixIdx width q = i) := by
        constructor
        · rintro ⟨q, hq, hqi⟩
          rcases List.mem_append.mp hq with hq' | hq'
          · exact ⟨q, hq', hqi⟩
          · rw [List.mem_singleton] at hq'
            subst hq'
            exact absurd hqi.symm heq
        · rintro ⟨q, hq, hqi⟩
          exact ⟨q, List.mem_append_left _ hq, hqi⟩
      rw [if_congr hiff rfl rfl]
  · rw [List.nodup_append]
    exact ⟨hnodup, List.nodup_singleton _, by
      intro a ha hb
      rw [List.mem_singleton] at hb
      subst hb
      exact hpnotin ha⟩
  · intro q hq
    rcases List.mem_append.mp hq with hq' | hq'
    · exact hcont q hq'
    · rw [List.mem_singleton] at hq'
      subst hq'
      exact ⟨hp.1, hp.2.2⟩
  · intro q hq
    rcases List.mem_append.mp hq with hq' | hq'
    · rw [List.mem_reverse] at hq'
      obtain ⟨hadj, hb, hv0, he⟩ := mem_contourPushes.mp hq'
      exact ⟨hb, he, hp.2.2.tail ⟨hadj, hb, he⟩⟩
    · exact hstk q (List.mem_cons_of_mem _ hq')
  · intro q hq r hr
    rcases List.mem_append.mp hq with hq' | hq'
    · rcases hfront q hq' r hr with hrc | hrs
      · exact Or.inl (List.mem_append_left _ hrc)
      · rcases List.mem_cons.mp hrs with rfl | hrs'
        · exact Or.inl (List.mem_append_right _ (List.mem_singleton_self _))
        · exact Or.inr (List.mem_append_right _ hrs')
    · rw [List.mem_singleton] at hq'
      subst hq'
      by_cases hv1 : Function.update v (pixIdx width q) 1 (pixIdx width r) = 0
      · refine Or.inr (List.mem_append_left _ ?_)
        rw [List.mem_reverse]
        exact mem_contourPushes.mpr ⟨hr.1, hr.2.1, hv1, hr.2.2⟩
      · by_cases heq : pixIdx width r = pixIdx width q
        · have : r = q := pixIdx_inj hr.2.1 hp.1 heq
          subst this
          exact Or.inl (List.mem_append_right _ (List.mem_singleton_self _))
        · rw [Function.update_noteq heq] at hv1
          have h1 := hvis (pixIdx width r)
          have hVr : V (pixIdx width r) = 0 := hV r (hp.2.2.tail hr)
          by_cases hex : ∃ q' ∈ contour, pixIdx width q' = pixIdx width r
          · obtain ⟨q', hq', hq'i⟩ := hex
            have : q' = r := pixIdx_inj (hcont q' hq').1 hr.2.1 hq'i
            subst this
            exact Or.inl (List.mem_append_left _ hq')
          · rw [if_neg hex, hVr] at h1
            exact absurd h1 hv1
  · rcases hstart with hs' | hs'
    · exact Or.inl (List.mem_append_left _ hs')
    · rcases List.mem_cons.mp hs' with rfl | hs''
      · exact Or.inl (List.mem_append_right _ (List.mem_singleton_self _))
      · exact Or.inr (List.mem_append_right _ hs'')

end TraceCorrect2

section TraceCorrect3

variable {edgeData : ℕ → ℕ} {width height : ℕ} {s : ℕ × ℕ} {V : ℕ → ℕ}

/-- Popping an already-visited pixel preserves the invariant. -/
theorem TInv_skip (hV : ∀ q, connected edgeData width height s q → V (pixIdx width q) = 0)
    {v : ℕ → ℕ} {p : ℕ × ℕ} {rest contour : List (ℕ × ℕ)}
    (hinv : TInv edgeData width height s V v (p :: rest) contour)
    (hcond : ¬ (v (pixIdx width p) = 0 ∧ edgeData (pixIdx width p) = 255)) :
    TInv edgeData width height s V v rest contour := by
  obtain ⟨hvis, hnodup, hcont, hstk, hfront, hstart⟩ := hinv
  have hp := hstk p (List.mem_cons_self _ _)
  have hpv : v (pixIdx width p) ≠ 0 := by
    intro h0
    exact hcond ⟨h0, hp.2.1⟩
  have hpin : p ∈ contour := by
    have h1 := hvis (pixIdx width p)
    by_cases hex : ∃ q' ∈ contour, pixIdx width q' = pixIdx width p
    · obtain ⟨q', hq', hq'i⟩ := hex
      have : q' = p := pixIdx_inj (hcont q' hq').1 hp.1 hq'i
      subst this
      exact hq'
    · rw [if_neg hex, hV p hp.2.2] at h1
      exact absurd h1 hpv
  refine ⟨hvis, hnodup, hcont, ?_, ?_, ?_⟩
  · intro q hq
    exact hstk q (List.mem_cons_of_mem _ hq)
  · intro q hq r hr
    rcases hfront q hq r hr with hrc | hrs
    · exact Or.inl hrc
    · rcases List.mem_cons.mp hrs with rfl | hrs'
      · exact Or.inl hpin
      · exact Or.inr hrs'
  · rcases hstart with hs' | hs'
    · exact Or.inl hs'
    · rcases List.mem_cons.mp hs' with rfl | hs''
      · exact Or.inl hpin
      · exact Or.inr hs''

/-- Running the trace loop from an invariant state with sufficient fuel
drains the stack and preserves the invariant. -/
theorem traceLoop_post
    (hV : ∀ q, connected edgeData width height s q → V (pixIdx width q) = 0) :
    ∀ (fuel : ℕ) (v : ℕ → ℕ) (stack contour : List (ℕ × ℕ)),
      TInv edgeData width height s V v stack contour →
      9 * unvisitedCount edgeData width height v + stack.length ≤ fuel →
      TInv edgeData width height s V
        (traceLoop edgeData width height fuel v stack contour).1 []
        (traceLoop edgeData width height fuel v stack contour).2 := by
  intro fuel
  induction fuel with
  | zero =>
    intro v stack contour hinv hμ
    have hstack : stack = [] := by
      cases stack with
      | nil => rfl
      | cons p rest => simp at hμ
    subst hstack
    exact hinv
  | succ fuel ih =>
    intro v stack contour hinv hμ
    cases stack with
    | nil => exact hinv
    | cons p rest =>
      by_cases hcond : v (pixIdx width p) = 0 ∧ edgeData (pixIdx width p) = 255
      · rw [traceLoop_cons_mark edgeData width height hcond]
        apply ih
        · exact TInv_mark hV hinv hcond
        · have hlt := unvisitedCount_lt edgeData width height
            (hinv.2.2.2.1 p (List.mem_cons_self _ _)).1 hcond.2 hcond.1
          have hpl := contourPushes_length_le edgeData width height
            (Function.update v (pixIdx width p) 1) p
          rw [List.length_append, List.length_reverse]
          rw [List.length_cons] at hμ
          omega
      · rw [traceLoop_cons_skip edgeData width height hcond]
        apply ih
        · exact TInv_skip hV hinv hcond
        · rw [List.length_cons] at hμ
          omega

end TraceCorrect3

/-- Full specification of one `traceContour` call on an unvisited component:
the returned contour enumerates the 8-connected component of the start pixel
without duplicates, and the returned visited mask is the old one with exactly
the contour marked. -/
theorem traceContour_spec {edgeData : ℕ → ℕ} {width height : ℕ} {s : ℕ × ℕ} {V : ℕ → ℕ}
    (hs : inBounds width height s) (hset : isSetPix edgeData width s)
    (hV : ∀ q, connected edgeData width height s q → V (pixIdx width q) = 0) :
    (∀ q, q ∈ (traceContour edgeData V width height s.1 s.2).2
        ↔ connected edgeData width height s q)
    ∧ (traceContour edgeData V width height s.1 s.2).2.Nodup
    ∧ (∀ i, (traceContour edgeData V width height s.1 s.2).1 i
        = if ∃ q ∈ (traceContour edgeData V width height s.1 s.2).2, pixIdx width q = i
          then 1 else V i) := by
  have hseta : s = (s.1, s.2) := rfl
  have hinv0 : TInv edgeData width height s V V [(s.1, s.2)] [] := by
    refine ⟨by simp, List.nodup_nil, by simp, ?_, by simp, ?_⟩
    · intro q hq
      rw [List.mem_singleton] at hq
      subst hq
      exact ⟨hs, hset, .refl⟩
    · right
      rw [List.mem_singleton]
  have hfuel : 9 * unvisitedCount edgeData width height V + ([(s.1, s.2)] : List (ℕ × ℕ)).length
      ≤ loopFuel width height := by
    have := unvisitedCount_le edgeData width height V
    unfold loopFuel
    simp only [List.length_singleton]
    omega
  have hpost := traceLoop_post hV (loopFuel width height) V [(s.1, s.2)] [] hinv0 hfuel
  obtain ⟨hvis, hnodup, hcont, -, hfront, hstart⟩ := hpost
  have hsin : s ∈ (traceLoop edgeData width height (loopFuel width height) V
      [(s.1, s.2)] []).2 := by
    rcases hstart with h | h
    · exact h
    · exact absurd h (List.not_mem_nil _)
  refine ⟨?_, hnodup, hvis⟩
  intro q
  constructor
  · intro hq
    exact (hcont q hq).2
  · intro hq
    induction hq with
    | refl => exact hsin
    | tail hab hstep ih =>
      rcases hfront _ ih _ hstep with h | h
      · exact h
      · exact absurd h (List.not_mem_nil _)

/-- The scan invariant of `findContours`: the visited mask is a union of
whole components of set in-bounds pixels; every kept contour is a
duplicate-free enumeration of one component with more than ten pixels, fully
visited; kept contours are pairwise disjoint; and every visited set pixel
either lies in some kept contour or belongs to a component of at most ten
pixels. -/
def SInv (edgeData : ℕ → ℕ) (width height : ℕ) (v : ℕ → ℕ)
    (acc : List (List (ℕ × ℕ))) : Prop :=
  (∀ p, inBounds width height p → isSetPix edgeData width p → v (pixIdx width p) ≠ 0 →
      ∀ q, connected edgeData width height p q → v (pixIdx width q) ≠ 0)
  ∧ (∀ i, v i ≠ 0 → ∃ p, inBounds width height p ∧ isSetPix edgeData width p
      ∧ pixIdx width p = i)
  ∧ (∀ c ∈ acc, c.Nodup ∧ 10 < c.length
      ∧ (∃ p, inBounds width height p ∧ isSetPix edgeData width p
          ∧ ∀ q, (q ∈ c ↔ connected edgeData width height p q))
      ∧ (∀ q ∈ c, v (pixIdx width q) ≠ 0))
  ∧ List.Pairwise (fun c d => ∀ q ∈ c, q ∉ d) acc
  ∧ (∀ p, inBounds width height p → isSetPix edgeData width p → v (pixIdx width p) ≠ 0 →
      (∃ c ∈ acc, p ∈ c)
      ∨ ∃ L : List (ℕ × ℕ), L.Nodup ∧ (∀ q, q ∈ L ↔ connected edgeData width height p q)
          ∧ L.length ≤ 10)

/-- One scan cell preserves the invariant, never unvisits a pixel, leaves the
processed cell visited when it is set, and keeps every previous contour. -/
theorem SInv_step {edgeData : ℕ → ℕ} {width height : ℕ} {v : ℕ → ℕ}
    {acc : List (List (ℕ × ℕ))} {z : ℕ × ℕ}
    (hzb : inBounds width height z) (hinv : SInv edgeData width height v acc) :
    SInv edgeData width height (findContoursStep edgeData width height (v, acc) z).1
        (findContoursStep edgeData width height (v, acc) z).2
    ∧ (∀ i, v i ≠ 0 → (findContoursStep edgeData width height (v, acc) z).1 i ≠ 0)
    ∧ (isSetPix edgeData width z →
        (findContoursStep edgeData width height (v, acc) z).1 (pixIdx width z) ≠ 0)
    ∧ (∀ c ∈ acc, c ∈ (findContoursStep edgeData width height (v, acc) z).2) := by
  obtain ⟨hA, hB, hC, hD, hE⟩ := hinv
  by_cases hc : edgeData (pixIdx width z) = 255 ∧ v (pixIdx width z) = 0
  · have hzs : isSetPix edgeData width z := hc.1
    have hV : ∀ q, connected edgeData width height z q → v (pixIdx width q) = 0 := by
      intro q hq
      by_contra hqv
      have hqprops := connected_target_props ⟨hzb, hzs⟩ hq
      exact absurd (hA q hqprops.1 hqprops.2 hqv z (connected_symm hzb hzs hq)) (by
        intro hcontra
        exact hcontra hc.2)
    obtain ⟨Tiff, Tnodup, Tvis⟩ := traceContour_spec hzb hzs hV
    have hstep : findContoursStep edgeData width height (v, acc) z
        = ((traceContour edgeData v width height z.1 z.2).1,
            if 10 < (traceContour edgeData v width height z.1 z.2).2.length
            then acc ++ [(traceContour edgeData v width height z.1 z.2).2] else acc) := by
      unfold findContoursStep
      dsimp only
      exact if_pos hc
    rw [hstep]
    have hmono : ∀ i, v i ≠ 0 → (traceContour edgeData v width height z.1 z.2).1 i ≠ 0 := by
      intro i hi
      rw [Tvis i]
      split_ifs
      · exact one_ne_zero
      · exact hi
    have hTnonzero : ∀ q ∈ (traceContour edgeData v width height z.1 z.2).2,
        (traceContour edgeData v width height z.1 z.2).1 (pixIdx width q) ≠ 0 := by
      intro q hq
      rw [Tvis (pixIdx width q), if_pos ⟨q, hq, rfl⟩]
      exact one_ne_zero
    have hTprops : ∀ q ∈ (traceContour edgeData v width height z.1 z.2).2,
        inBounds width height q ∧ isSetPix edgeData width q := by
      intro q hq
      exact connected_target_props ⟨hzb, hzs⟩ ((Tiff q).mp hq)
    have hTfresh : ∀ q ∈ (traceContour edgeData v width height z.1 z.2).2,
        v (pixIdx width q) = 0 := by
      intro q hq
      exact hV q ((Tiff q).mp hq)
    have hmem_of_new : ∀ p, inBounds width height p → v (pixIdx width p) = 0 →
        (traceContour edgeData v width height z.1 z.2).1 (pixIdx width p) ≠ 0 →
        p ∈ (traceContour edgeData v width height z.1 z.2).2 := by
      intro p hb hv0 hv1
      rw [Tvis (pixIdx width p)] at hv1
      by_cases hex : ∃ q ∈ (traceContour edgeData v width height z.1 z.2).2,
          pixIdx width q = pixIdx width p
      · obtain ⟨q, hq, hqi⟩ := hex
        have : q = p := pixIdx_inj (hTprops q hq).1 hb hqi
        subst this
        exact hq
      · rw [if_neg hex] at hv1
        exact absurd hv0 hv1
    refine ⟨⟨?_, ?_, ?_, ?_, ?_⟩, hmono, fun _ => ?_, ?_⟩
    · -- closure
      intro p hb hset hpv q hq
      by_cases hvp : v (pixIdx width p) = 0
      · have hpT := hmem_of_new p hb hvp hpv
        have hzp : connected edgeData width height z p := (Tiff p).mp hpT
        have hzq : connected edgeData width height z q := hzp.trans hq
        exact hTnonzero q ((Tiff q).mpr hzq)
      · exact hmono _ (hA p hb hset hvp q hq)
    · -- visited pixels are set and in bounds
      intro i hi
      by_cases hex : ∃ q ∈ (traceContour edgeData v width height z.1 z.2).2,
          pixIdx width q = i
      · obtain ⟨q, hq, hqi⟩ := hex
        exact ⟨q, (hTprops q hq).1, (hTprops q hq).2, hqi⟩
      · rw [Tvis i, if_neg hex] at hi
        exact hB i hi
    · -- contour contents
      intro c hcmem
      split_ifs at hcmem with hlen
      · rcases List.mem_append.mp hcmem with hcm | hcm
        · obtain ⟨h1, h2, h3, h4⟩ := hC c hcm
          exact ⟨h1, h2, h3, fun q hq => hmono _ (h4 q hq)⟩
        · rw [List.mem_singleton] at hcm
          subst hcm
          exact ⟨Tnodup, hlen, ⟨z, hzb, hzs, Tiff⟩, hTnonzero⟩
      · obtain ⟨h1, h2, h3, h4⟩ := hC c hcmem
        exact ⟨h1, h2, h3, fun q hq => hmono _ (h4 q hq)⟩
    · -- pairwise disjointness
      split_ifs with hlen
      · rw [List.pairwise_append]
        refine ⟨hD, List.pairwise_singleton _ _, ?_⟩
        intro a ha b hb q hqa
        rw [List.mem_singleton] at hb
        subst hb
        intro hqT
        exact (hC a ha).2.2.2 q hqa (hTfresh q hqT)
      · exact hD
    · -- every visited set pixel is accounted for
      intro p hb hset hpv
      by_cases hvp : v (pixIdx width p) = 0
      · have hpT := hmem_of_new p hb hvp hpv
        have hzp : connected edgeData width height z p := (Tiff p).mp hpT
        have hiffp : ∀ q, (q ∈ (traceContour edgeData v width height z.1 z.2).2
            ↔ connected edgeData width height p q) := by
          intro q
          rw [Tiff q]
          constructor
          · intro hzq
            exact (connected_symm hzb hzs hzp).trans hzq
          · intro hpq
            exact hzp.trans hpq
        split_ifs with hlen
        · exact Or.inl ⟨(traceContour edgeData v width height z.1 z.2).2,
            List.mem_append_right _ (List.mem_singleton_self _), hpT⟩
        · refine Or.inr ⟨(traceContour edgeData v width height z.1 z.2).2, Tnodup,
            hiffp, by omega⟩
      · rcases hE p hb hset hvp with ⟨c, hcm, hpc⟩ | hsmall
        · split_ifs with hlen
          · exact Or.inl ⟨c, List.mem_append_left _ hcm, hpc⟩
          · exact Or.inl ⟨c, hcm, hpc⟩
        · exact Or.inr hsmall
    · -- the scanned set cell ends visited
      exact hTnonzero z ((Tiff z).mpr .refl)
    · -- previous contours survive
      intro c hcm
      split_ifs
      · exact List.mem_append_left _ hcm
      · exact hcm
  · have hstep : findContoursStep edgeData width height (v, acc) z = (v, acc) := by
      unfold findContoursStep
      dsimp only
      exact if_neg hc
    rw [hstep]
    refine ⟨⟨hA, hB, hC, hD, hE⟩, fun i hi => hi, ?_, fun c hcm => hcm⟩
    intro hset
    intro h0
    exact hc ⟨hset, h0⟩

/-- The scan fold preserves the invariant, never unvisits, visits every set
cell it processes, and keeps every previous contour. -/
theorem findContoursFold_spec {edgeData : ℕ → ℕ} {width height : ℕ} :
    ∀ (cells : List (ℕ × ℕ)) (st : (ℕ → ℕ) × List (List (ℕ × ℕ))),
      (∀ z ∈ cells, inBounds width height z) →
      SInv edgeData width height st.1 st.2 →
      SInv edgeData width height
          (cells.foldl (findContoursStep edgeData width height) st).1
          (cells.foldl (findContoursStep edgeData width height) st).2
      ∧ (∀ i, st.1 i ≠ 0 →
          (cells.foldl (findContoursStep edgeData width height) st).1 i ≠ 0)
      ∧ (∀ z ∈ cells, isSetPix edgeData width z →
          (cells.foldl (findContoursStep edgeData width height) st).1 (pixIdx width z) ≠ 0)
      ∧ (∀ c ∈ st.2, c ∈ (cells.foldl (findContoursStep edgeData width height) st).2) := by
  intro cells
  induction cells with
  | nil =>
    intro st hb hinv
    exact ⟨hinv, fun i hi => hi, by simp, fun c hc => hc⟩
  | cons z cells ih =>
    intro st hb hinv
    have hzb := hb z (List.mem_cons_self _ _)
    obtain ⟨h1, h2, h3, h4⟩ := SInv_step hzb hinv
    rw [List.foldl_cons]
    obtain ⟨ihinv, ihmono, ihcells, ihacc⟩ :=
      ih (findContoursStep edgeData width height st z)
        (fun z' hz' => hb z' (List.mem_cons_of_mem _ hz')) h1
    refine ⟨ihinv, ?_, ?_, ?_⟩
    · intro i hi
      exact ihmono i (h2 i hi)
    · intro z' hz' hset
      rcases List.mem_cons.mp hz' with rfl | hz''
      · exact ihmono _ (h3 hset)
      · exact ihcells z' hz'' hset
    · intro c hc
      exact ihacc c (h4 c hc)

/-- Master specification of `findContours`: every returned contour is a
duplicate-free enumeration of one 8-connected component with more than ten
pixels; returned contours are pairwise disjoint; and every set in-bounds
pixel either occurs in a returned contour or its component has at most ten
pixels. -/
theorem findContours_spec (edgeData : ℕ → ℕ) (width height : ℕ) :
    (∀ c ∈ findContours edgeData width height, c.Nodup ∧ 10 < c.length
      ∧ ∃ p, inBounds width height p ∧ isSetPix edgeData width p
          ∧ (∀ q, q ∈ c ↔ connected edgeData width height p q))
    ∧ List.Pairwise (fun c d => ∀ q ∈ c, q ∉ d) (findContours edgeData width height)
    ∧ (∀ p, inBounds width height p → isSetPix edgeData width p →
        (∃ c ∈ findContours edgeData width height, p ∈ c)
        ∨ ∃ L : List (ℕ × ℕ), L.Nodup
            ∧ (∀ q, q ∈ L ↔ connected edgeData width height p q) ∧ L.length ≤ 10) := by
  have hinv0 : SInv edgeData width height (fun _ => 0) [] := by
    refine ⟨?_, ?_, by simp, List.Pairwise.nil, ?_⟩
    · intro p _ _ hpv
      exact absurd rfl hpv
    · intro i hi
      exact absurd rfl hi
    · intro p _ _ hpv
      exact absurd rfl hpv
  have hb : ∀ z ∈ rowMajorCells width height, inBounds width height z :=
    fun z hz => mem_rowMajorCells.mp hz
  obtain ⟨hfin, -, hcov, -⟩ := findContoursFold_spec (rowMajorCells width height)
    ((fun _ => 0), []) hb hinv0
  obtain ⟨hA, hB, hC, hD, hE⟩ := hfin
  refine ⟨?_, hD, ?_⟩
  · intro c hc
    obtain ⟨h1, h2, h3, -⟩ := hC c hc
    exact ⟨h1, h2, h3⟩
  · intro p hpb hps
    exact hE p hpb hps (hcov p (mem_rowMajorCells.mpr hpb) hps)

/-- A ten-pixel mask: the first two rows of a 5×3 grid are set. -/
def mask10 : ℕ → ℕ := fun i => if i < 10 then 255 else 0

/-- The 8-connected component of `(0,0)` in `mask10`, in the DFS order of
`traceContour`. -/
def mask10component : List (ℕ × ℕ) :=
  [(0, 0), (1, 1), (2, 1), (3, 1), (4, 1), (4, 0), (3, 0), (2, 0), (1, 0), (0, 1)]

/-- An eleven-pixel mask: the first two rows of a 5×3 grid and `(0,2)`. -/
def mask11 : ℕ → ℕ := fun i => if i < 11 then 255 else 0

/-- The 8-connected component of `(0,0)` in `mask11`, in the DFS order of
`traceContour`. -/
def mask11component : List (ℕ × ℕ) :=
  [(0, 0), (1, 1), (0, 2), (0, 1), (1, 0), (2, 1), (3, 1), (4, 1), (4, 0), (3, 0), (2, 0)]

/-- `mask10component` enumerates the component of `(0,0)` in `mask10`. -/
theorem mask10component_iff :
    ∀ q, q ∈ mask10component ↔ connected mask10 5 3 (0, 0) q := by
  have hspec := @traceContour_spec mask10 5 3 (0, 0) (fun _ => 0)
      (by decide) (by decide) (fun q _ => rfl)
  have h1 : ∀ q, q ∈ (traceContour mask10 (fun _ => 0) 5 3 0 0).2
      ↔ connected mask10 5 3 (0, 0) q := hspec.1
  have hTeq : (traceContour mask10 (fun _ => 0) 5 3 0 0).2 = mask10component := by decide
  rw [hTeq] at h1
  exact h1

/-- `mask11component` enumerates the component of `(0,0)` in `mask11`. -/
theorem mask11component_iff :
    ∀ q, q ∈ mask11component ↔ connected mask11 5 3 (0, 0) q := by
  have hspec := @traceContour_spec mask11 5 3 (0, 0) (fun _ => 0)
      (by decide) (by decide) (fun q _ => rfl)
  have h1 : ∀ q, q ∈ (traceContour mask11 (fun _ => 0) 5 3 0 0).2
      ↔ connected mask11 5 3 (0, 0) q := hspec.1
  have hTeq : (traceContour mask11 (fun _ => 0) 5 3 0 0).2 = mask11component := by decide
  rw [hTeq] at h1
  exact h1

/-- Duplicate-free lists with the same members have the same length. -/
theorem nodup_same_members_length {A B : List (ℕ × ℕ)} (hA : A.Nodup) (hB : B.Nodup)
    (hAB : ∀ q, q ∈ A ↔ q ∈ B) : A.length = B.length := by
  have h1 : List.Subperm A B := List.subperm_of_subset hA (fun a ha => (hAB a).mp ha)
  have h2 : List.Subperm B A := List.subperm_of_subset hB (fun a ha => (hAB a).mpr ha)
  exact Nat.le_antisymm h1.length_le h2.length_le

/-- C7 counterexample: in `mask10` the component of `(0,0)` has exactly ten
pixels — at least ten, so the claim would require it to appear in the output —
but `findContours` returns the empty list (the code keeps only contours with
strictly more than ten pixels). -/
theorem claimC7_counterexample :
    inBounds 5 3 ((0, 0) : ℕ × ℕ) ∧ isSetPix mask10 5 (0, 0)
    ∧ mask10component.Nodup ∧ 10 ≤ mask10component.length
    ∧ (∀ q, q ∈ mask10component ↔ connected mask10 5 3 (0, 0) q)
    ∧ findContours mask10 5 3 = [] :=
  ⟨by decide, by decide, by decide, by decide, mask10component_iff, by decide⟩

/-- C7 (amended): `findContours` keeps exactly the components with strictly
more than ten pixels: given a duplicate-free enumeration `L` of the
8-connected component of a set in-bounds pixel `p`, if `L` has more than ten
pixels then some output contour has exactly the members of `L`, and if `L`
has at most ten pixels (which includes every component of exactly ten
pixels) then no output contour has the members of `L`. -/
theorem claimC7_component_threshold (edgeData : ℕ → ℕ) (width height : ℕ)
    (p : ℕ × ℕ) (L : List (ℕ × ℕ))
    (hp : inBounds width height p) (hps : isSetPix edgeData width p)
    (hn : L.Nodup) (hL : ∀ q, q ∈ L ↔ connected edgeData width height p q) :
    (10 < L.length →
      ∃ c ∈ findContours edgeData width height, ∀ q, q ∈ c ↔ q ∈ L)
    ∧ (L.length ≤ 10 →
      ∀ c ∈ findContours edgeData width height, ¬ (∀ q, q ∈ c ↔ q ∈ L)) := by
  obtain ⟨hEach, -, hCov⟩ := findContours_spec edgeData width height
  constructor
  · intro hbig
    rcases hCov p hp hps with ⟨c, hc, hpc⟩ | ⟨L', hL'n, hL'iff, hL'len⟩
    · refine ⟨c, hc, ?_⟩
      obtain ⟨hcn, hclen, p', hp'b, hp's, hc_iff⟩ := hEach c hc
      have hp'p : connected edgeData width height p' p := (hc_iff p).mp hpc
      intro q
      rw [hc_iff q, hL q]
      constructor
      · intro hq
        exact (connected_symm hp'b hp's hp'p).trans hq
      · intro hq
        exact hp'p.trans hq
    · have : L.length = L'.length :=
        nodup_same_members_length hn hL'n (fun q => by rw [hL q, hL'iff q])
      omega
  · intro hsmall c hc hiff
    obtain ⟨hcn, hclen, -⟩ := hEach c hc
    have : c.length = L.length := nodup_same_members_length hcn hn hiff
    omega

/-- C7 witness: in `mask11` the component of `(0,0)` has eleven pixels, and
the theorem produces an output contour with exactly its members. -/
theorem claimC7_component_threshold_witness :
    inBounds 5 3 ((0, 0) : ℕ × ℕ) ∧ isSetPix mask11 5 (0, 0)
    ∧ mask11component.Nodup ∧ 10 < mask11component.length
    ∧ ∃ c ∈ findContours mask11 5 3, ∀ q, q ∈ c ↔ q ∈ mask11component :=
  ⟨by decide, by decide, by decide, by decide,
    (claimC7_component_threshold mask11 5 3 (0, 0) mask11component (by decide) (by decide)
      (by decide) mask11component_iff).1 (by decide)⟩

/-- C9: for every edge mask the contours returned by `findContours` are
pairwise disjoint — no pixel coordinate appears in two different contours —
and no coordinate appears twice within a single contour. -/
theorem claimC9_disjoint_nodup (edgeData : ℕ → ℕ) (width height : ℕ) :
    List.Pairwise (fun c d => ∀ q ∈ c, q ∉ d) (findContours edgeData width height)
    ∧ ∀ c ∈ findContours edgeData width height, c.Nodup := by
  obtain ⟨hEach, hDisj, -⟩ := findContours_spec edgeData width height
  exact ⟨hDisj, fun c hc => (hEach c hc).1⟩

/-- C9 witness: the single contour traced in `mask11` is duplicate-free. -/
theorem claimC9_disjoint_nodup_witness :
    mask11component ∈ findContours mask11 5 3 ∧ mask11component.Nodup :=
  ⟨by decide, (claimC9_disjoint_nodup mask11 5 3).2 mask11component (by decide)⟩
